import Mathlib

/-!
Verification of the localization-deduplication pipeline
(`remove-duplicidade-localizacao`): a shallow embedding in Lean 4 of the
services the specification describes — the text normalizer, the trigram
pair clusterer, the LLM validation parsing and persistence step, the
ViaCEP majority vote, the bigram-Dice similarity, and the transactional
merge / revert / discard engine — together with proofs and refutations of
the specified properties.

Modelling conventions:
* JavaScript strings are modelled as `List Char`; `String` is used where
  only equality and `trim` matter.
* `lowercase → NFD → strip combining marks` is modelled per character by
  `fold1`, with an explicit decomposition table covering the Latin-1
  repertoire of Brazilian place names; characters outside the table are
  left unchanged, exactly as NFD leaves undecomposable characters.
* the composite `replace(/\s+/g, " ").trim()` (collapse whitespace runs,
  then trim the ends) is modelled by `normChaves = juntar ∘ palavras`:
  split into maximal non-whitespace words and re-join with single spaces.
* JavaScript `Map` objects are modelled as association lists with
  insertion-order semantics: `set` updates an existing key in place and
  appends a new key at the end.
* numbers carrying similarity scores are modelled as `ℚ`;
  `Math.round(x * 100) / 100` is `arredondar2`.
* the Prisma/PostgreSQL state touched by the merge service is modelled by
  `Estado`: the group table, the `ms_merge_log` rows in insertion order,
  and the host tables (per foreign key a list of `(pk, value)` rows, per
  entity table the `excluido` flags and `nome` values).  Timestamp
  columns (`data_execucao`, `data_reversao`) are not modelled.
* a thrown JavaScript `Error` before/inside the transaction is modelled
  by `Except.error`; since the transaction is atomic, an error returns no
  state (the pre-state survives unchanged).
-/

namespace Dedup

/-! ## Entity kinds (`types/index.ts`) -/

/-- Entity kinds supported by the pipeline (`enum TipoEntidade`). -/
inductive TipoEntidade where
  | Cidade
  | Bairro
  | Logradouro
  | Condominio
deriving DecidableEq, Repr

/-- Numeric codes of `enum TipoEntidade` (Cidade = 1 … Condominio = 4). -/
def codigoDe : TipoEntidade → Nat
  | .Cidade => 1
  | .Bairro => 2
  | .Logradouro => 3
  | .Condominio => 4

/-- Reverse of `codigoDe`: the `tipo as TipoEntidade` cast of a stored
numeric code; unknown codes behave like `undefined` lookups. -/
def deCodigo : Nat → Option TipoEntidade
  | 1 => some .Cidade
  | 2 => some .Bairro
  | 3 => some .Logradouro
  | 4 => some .Condominio
  | _ => none

/-- Host table of each entity kind (`TIPO_ENTIDADE_TABELA`), looked up by
numeric code; unknown codes give `none` (`undefined`). -/
def tabelaEntidade (tipo : Nat) : Option String :=
  match deCodigo tipo with
  | some .Cidade => some "cidade"
  | some .Bairro => some "bairro"
  | some .Logradouro => some "logradouro"
  | some .Condominio => some "condominio"
  | none => none

/-! ## Normalizer (`normalizador.service.ts`) -/

/-- Whitespace in the sense of the `\s` regex class (the subset relevant
to the data: space, tab, newline, carriage return). -/
def ehEspaco (c : Char) : Bool :=
  c = ' ' || c = '\t' || c = '\n' || c = '\r'

/-- ASCII and Latin-1 lowercasing, as `String.prototype.toLowerCase`
acts on the repertoire of Brazilian place names: `A`–`Z` and the Latin-1
uppercase block `À`–`Þ` (except `×`) shift by 32. -/
def paraMinuscula (c : Char) : Char :=
  if 65 ≤ c.toNat ∧ c.toNat ≤ 90 then Char.ofNat (c.toNat + 32)
  else if 192 ≤ c.toNat ∧ c.toNat ≤ 222 ∧ c.toNat ≠ 215 then Char.ofNat (c.toNat + 32)
  else c

/-- NFD decomposition table for lowercase Latin-1 letters: each maps to
its base letter (the combining mark produced by NFD is immediately
removed by the `[̀-ͯ]` strip, so only the base survives). -/
def tabelaDecomp : List (Char × Char) :=
  [('à', 'a'), ('á', 'a'), ('â', 'a'), ('ã', 'a'), ('ä', 'a'), ('å', 'a'),
   ('ç', 'c'),
   ('è', 'e'), ('é', 'e'), ('ê', 'e'), ('ë', 'e'),
   ('ì', 'i'), ('í', 'i'), ('î', 'i'), ('ï', 'i'),
   ('ñ', 'n'),
   ('ò', 'o'), ('ó', 'o'), ('ô', 'o'), ('õ', 'o'), ('ö', 'o'),
   ('ù', 'u'), ('ú', 'u'), ('û', 'u'), ('ü', 'u'),
   ('ý', 'y'), ('ÿ', 'y')]

/-- Base letter of a decomposable character, if any. -/
def decompBase (c : Char) : Option Char :=
  (tabelaDecomp.find? (fun p => p.1 = c)).map (fun p => p.2)

/-- Per-character effect of `toLowerCase().normalize("NFD").replace(/[̀-ͯ]/g, "")`:
a combining mark is dropped, an accented letter becomes its lowercase
base letter, anything else is lowercased. -/
def fold1 (c : Char) : List Char :=
  if 0x300 ≤ c.toNat ∧ c.toNat ≤ 0x36F then []
  else
    let l := paraMinuscula c
    match decompBase l with
    | some b => [b]
    | none => [l]

/-- Accumulator worker for `palavras`; `w` is the current word reversed. -/
def palavrasAux : List Char → List Char → List (List Char)
  | [], w => if w.isEmpty then [] else [w.reverse]
  | c :: cs, w =>
    if ehEspaco c then
      if w.isEmpty then palavrasAux cs [] else w.reverse :: palavrasAux cs []
    else palavrasAux cs (c :: w)

/-- Maximal whitespace-free words of a character list, in order. -/
def palavras (s : List Char) : List (List Char) := palavrasAux s []

/-- Joins words with single spaces. -/
def juntar : List (List Char) → List Char
  | [] => []
  | [w] => w
  | w :: ws => w ++ ' ' :: juntar ws

/-- Semantics of the composite `replace(/\s+/g, " ").trim()`: whitespace
runs collapse to one space, leading/trailing whitespace disappears. -/
def normChaves (s : List Char) : List Char := juntar (palavras s)

/-- Model of `NormalizadorService.normalizar`: lowercase, NFD-decompose
and strip combining marks, collapse whitespace, trim. -/
def normalizar (s : List Char) : List Char :=
  normChaves (s.flatMap fold1)

/-- Prefix registry `PREFIXOS_POR_TIPO`, already lowercase and
accent-free, in source order. -/
def prefixosPorTipo : TipoEntidade → List (List Char)
  | .Bairro =>
      [['s','e','t','o','r'], ['j','a','r','d','i','m'], ['p','a','r','q','u','e'],
       ['v','i','l','a'], ['r','e','s','i','d','e','n','c','i','a','l'],
       ['c','o','n','j','u','n','t','o'], ['n','u','c','l','e','o'],
       ['b','a','i','r','r','o']]
  | .Condominio =>
      [['e','d','i','f','i','c','i','o'], ['c','o','n','d','o','m','i','n','i','o'],
       ['r','e','s','i','d','e','n','c','i','a','l'], ['t','o','r','r','e'],
       ['b','l','o','c','o'], ['e','d'], ['c','o','n','d']]
  | .Logradouro => []
  | .Cidade => []

/-- One iteration of the prefix-removal loop: the regex
`^prefixo\s+` (anchored, the `\s+` greedy) replaced by the empty string.
The input is already lowercase, so the `i` flag adds nothing. -/
def removerUmPrefixo (r : List Char) (p : List Char) : List Char :=
  if p.isPrefixOf r then
    match r.drop p.length with
    | c :: resto => if ehEspaco c then (c :: resto).dropWhile ehEspaco else r
    | [] => r
  else r

/-- Word characters in the sense of the `\w` regex class. -/
def ehCaracterePalavra (c : Char) : Bool :=
  ('a' ≤ c && c ≤ 'z') || ('A' ≤ c && c ≤ 'Z') || ('0' ≤ c && c ≤ '9') || c = '_'

/-- Numeral table `MAPA_NUMERICO`: Roman numerals and spelled-out
numerals to Arabic digits. -/
def mapaNumerico : List (List Char × List Char) :=
  [(['i'], ['1']), (['i','i'], ['2']), (['i','i','i'], ['3']),
   (['i','v'], ['4']), (['v'], ['5']), (['v','i'], ['6']),
   (['v','i','i'], ['7']), (['v','i','i','i'], ['8']),
   (['i','x'], ['9']), (['x'], ['1','0']),
   (['u','m'], ['1']), (['d','o','i','s'], ['2']),
   (['t','r','e','s'], ['3']), (['q','u','a','t','r','o'], ['4']),
   (['c','i','n','c','o'], ['5'])]

/-- The ten Arabic digit characters, the alphabet of the numeral
table's values. -/
def digitos : List Char :=
  ['0', '1', '2', '3', '4', '5', '6', '7', '8', '9']

/-- Replacement of one whole word (`MAPA_NUMERICO[palavra] ?? palavra`). -/
def substNumeral (w : List Char) : List Char :=
  match mapaNumerico.find? (fun p => p.1 = w) with
  | some p => p.2
  | none => w

/-- Accumulator worker for `trocarNumerais`; `run` is the current run of
word characters, reversed. -/
def trocarAux : List Char → List Char → List Char
  | [], run => if run.isEmpty then [] else substNumeral run.reverse
  | c :: cs, run =>
    if ehCaracterePalavra c then trocarAux cs (c :: run)
    else (if run.isEmpty then [] else substNumeral run.reverse) ++ c :: trocarAux cs []

/-- Model of `resultado.replace(/\b\w+\b/g, p => MAPA_NUMERICO[p] ?? p)`:
every maximal run of word characters is fed through the numeral table. -/
def trocarNumerais (s : List Char) : List Char := trocarAux s []

/-- Model of `NormalizadorService.normalizarComPrefixos`: basic
normalization, then the per-kind prefix-removal loop, then the numeral
rewrite, then a final whitespace collapse and trim. -/
def normalizarComPrefixos (s : List Char) (tipo : TipoEntidade) : List Char :=
  let r0 := normalizar s
  let r1 := (prefixosPorTipo tipo).foldl removerUmPrefixo r0
  let r2 := trocarNumerais r1
  normChaves r2

/-! ## Bigram-Dice similarity (`enriquecimento.service.ts` and
`apis/ibge.service.ts` — the two bodies are textually identical) -/

/-! ## Association-list model of JavaScript `Map` objects

A `Map` iterates in insertion order; `set` updates an existing key in
place and appends a missing key at the end.  `buscarAssoc` is `get`,
`definirAssoc` is `set`. -/

/-- JavaScript `Map.prototype.get` on an insertion-ordered map. -/
def buscarAssoc {α β : Type} [DecidableEq α] : List (α × β) → α → Option β
  | [], _ => none
  | (k, v) :: resto, chave => if k = chave then some v else buscarAssoc resto chave

/-- JavaScript `Map.prototype.set` on an insertion-ordered map. -/
def definirAssoc {α β : Type} [DecidableEq α] : List (α × β) → α → β → List (α × β)
  | [], chave, valor => [(chave, valor)]
  | (k, v) :: resto, chave, valor =>
    if k = chave then (k, valor) :: resto else (k, v) :: definirAssoc resto chave valor

/-- Bigrams of a character list (`gerarBigramas`). -/
def gerarBigramas (s : List Char) : List (Char × Char) :=
  s.zip s.tail

/-- Counting pass over the bigrams of `B`
(`contagemB.set(bg, (contagemB.get(bg) ?? 0) + 1)`). -/
def contarBigramas (bgsB : List (Char × Char)) : List ((Char × Char) × Nat) :=
  bgsB.foldl (fun m bg => definirAssoc m bg ((buscarAssoc m bg).getD 0 + 1)) []

/-- Multiset-intersection loop of the Dice computation: for each bigram
of `A`, consume one occurrence from the count map of `B` if available. -/
def contarIntersecao (bgsA : List (Char × Char))
    (contB : List ((Char × Char) × Nat)) (acc : Nat) : Nat :=
  match bgsA with
  | [] => acc
  | bg :: resto =>
    match buscarAssoc contB bg with
    | some n =>
      if 0 < n then contarIntersecao resto (definirAssoc contB bg (n - 1)) (acc + 1)
      else contarIntersecao resto contB acc
    | none => contarIntersecao resto contB acc

/-- Model of `similaridadeDice` / `calcularSimilaridade`: early equality
and short-string checks, then `2·|A ∩ B| / (|A| + |B|)` over bigram
multisets. -/
def similaridadeDice (a b : List Char) : ℚ :=
  if a = b then 1
  else if a.length < 2 ∨ b.length < 2 then 0
  else
    let bigramasA := gerarBigramas a
    let bigramasB := gerarBigramas b
    let contagemB := contarBigramas bigramasB
    let intersecao := contarIntersecao bigramasA contagemB 0
    (2 * intersecao : ℚ) / (bigramasA.length + bigramasB.length)

/-! ## LLM validation (`apis/openai.service.ts`) -/

/-- Result of one LLM validation (`interface ValidacaoLLM`). -/
structure ValidacaoLLM where
  saoDuplicatas : Bool
  confianca : ℚ
  nomeCanonico : String
  justificativa : String
  membrosValidos : List String
deriving DecidableEq, Repr

/-- Shape of one parsed JSON object the model may return for a group.
`saoDuplicatasEhTrue` records whether `json.sao_duplicatas === true`;
the `Option` fields record presence with the expected dynamic type
(`confianca` a number, `membros_validos_ids` an array of strings). -/
structure RespostaGrupoJson where
  saoDuplicatasEhTrue : Bool
  confianca : Option ℚ
  nome_canonico : Option String
  justificativa : Option String
  membros_validos_ids : Option (List String)
deriving DecidableEq, Repr

/-- Model of `OpenAIValidationService.parseResposta`; `none` is a
`JSON.parse` failure (the `catch` branch). -/
def parseResposta (conteudo : Option RespostaGrupoJson) (registroIds : List String) :
    ValidacaoLLM :=
  match conteudo with
  | none =>
    { saoDuplicatas := false, confianca := 0, nomeCanonico := "",
      justificativa := "Erro ao parsear resposta do LLM", membrosValidos := [] }
  | some json =>
    { saoDuplicatas := json.saoDuplicatasEhTrue
      confianca := json.confianca.getD 0
      nomeCanonico := json.nome_canonico.getD ""
      justificativa := json.justificativa.getD ""
      membrosValidos :=
        match json.membros_validos_ids with
        | some ids => ids.filter (fun id => id ∈ registroIds)
        | none => registroIds }

/-- Model of the per-group result construction in
`validarGruposBatch` (the `validacao: ValidacaoLLM = ...` literal). -/
def validacaoBatchEntrada (resp : RespostaGrupoJson) (registroIds : List String) :
    ValidacaoLLM :=
  { saoDuplicatas := resp.saoDuplicatasEhTrue
    confianca := resp.confianca.getD 0
    nomeCanonico := resp.nome_canonico.getD ""
    justificativa := resp.justificativa.getD ""
    membrosValidos :=
      match resp.membros_validos_ids with
      | some ids => ids.filter (fun id => id ∈ registroIds)
      | none => registroIds }

/-! ## Detection: persistence step of `executarDeteccao`
(`deteccao.service.ts`, LLM-batch variant) -/

/-- Group produced by the clusterer (`interface GrupoCriado`). -/
structure GrupoCriado where
  tipoEntidade : Nat
  parentId : Option String
  nomeNormalizado : String
  registroIds : List String
  nomesMembros : List String
  scoreMedio : ℚ
deriving DecidableEq, Repr

/-- Row written by `prisma.ms_grupo_duplicata.create` in the persistence
loop.  `detalhes_llm` keeps the validation record itself (the JSON
serialization is injective on it). -/
structure GrupoPersistido where
  tipo_entidade : Nat
  parent_id : Option String
  nome_normalizado : String
  registro_ids : List String
  nomes_membros : List String
  score_medio : ℚ
  fonte : String
  detalhes_llm : Option ValidacaoLLM
  status : Nat
deriving DecidableEq, Repr

/-- Trimming and canonical-name override applied to a confirmed group
(lines «LLM confirmou mas pode ter removido membros» and «Usa nome
canônico sugerido pelo LLM»). -/
def aplicarValidacao (g : GrupoCriado) (det : ValidacaoLLM) : GrupoCriado :=
  let g2 :=
    if 2 ≤ det.membrosValidos.length ∧
        det.membrosValidos.length < g.registroIds.length then
      let indicesValidos := (List.range g.registroIds.length).filter
        (fun idx => (g.registroIds.getD idx "") ∈ det.membrosValidos)
      { g with
        registroIds := indicesValidos.map (fun idx => g.registroIds.getD idx "")
        nomesMembros := indicesValidos.map (fun idx => g.nomesMembros.getD idx "") }
    else g
  if det.nomeCanonico ≠ "" then { g2 with nomeNormalizado := det.nomeCanonico } else g2

/-- Field assembly of the `ms_grupo_duplicata.create` call: the `fonte`
tag depends only on `openaiValidationService.disponivel`. -/
def mkGrupoPersistido (disponivel : Bool) (g : GrupoCriado)
    (det : Option ValidacaoLLM) : GrupoPersistido :=
  { tipo_entidade := g.tipoEntidade, parent_id := g.parentId,
    nome_normalizado := g.nomeNormalizado, registro_ids := g.registroIds,
    nomes_membros := g.nomesMembros, score_medio := g.scoreMedio,
    fonte := if disponivel then "pg_trgm+llm" else "pg_trgm",
    detalhes_llm := det, status := 1 }

/-- Persistence loop of `executarDeteccao` (lines 178–225): walks the
groups with the parallel array of LLM validations, discards rejected
groups (counting them), trims confirmed ones, and persists the rest.
Returns the created rows and the `descartadosLlm` counter. -/
def persistirGrupos (disponivel : Bool) :
    List GrupoCriado → List (Option ValidacaoLLM) → List GrupoPersistido × Nat
  | [], _ => ([], 0)
  | g :: gs, vs =>
    let resto := persistirGrupos disponivel gs vs.tail
    match vs.head?.getD none with
    | some det =>
      if det.saoDuplicatas = false then (resto.1, resto.2 + 1)
      else (mkGrupoPersistido disponivel (aplicarValidacao g det) (some det) :: resto.1,
            resto.2)
    | none => (mkGrupoPersistido disponivel g none :: resto.1, resto.2)

/-- Models the result of `validarGruposBatch` when the single batch call
fails (HTTP error, empty `content`, or a `JSON.parse` exception caught
at lines «Erro na validação LLM batch») and no group was in cache: the
returned map is empty, so the parallel `validacoesLlm` array keeps
`null` at every index. -/
def resultadoBatchFalhaSemCache (n : Nat) : List (Option ValidacaoLLM) :=
  List.replicate n none

/-! ## ViaCEP majority vote (`apis/viacep.service.ts`) -/

/-- Standardized official-name result (`interface ResultadoOficial`). -/
structure ResultadoOficial where
  nomeOficial : String
  fonte : String
  score : ℚ
deriving DecidableEq, Repr

/-- Neighborhood names returned by the per-CEP lookups that survive the
filters of `buscarNomeBairro`: the list is capped at
`maxCepsPorMembro`, a failed lookup (`null` / rejected promise) and an
empty `bairro` field are skipped, and the surviving name is trimmed.
`consultar` abstracts `consultarCep(...)?.bairro`. -/
def nomesResolvidos (consultar : String → Option String) (maxCeps : Nat)
    (ceps : List String) : List String :=
  (ceps.take maxCeps).filterMap (fun cep =>
    match consultar cep with
    | none => none
    | some bairro => if bairro = "" then none else some bairro.trim)

/-- Frequency map `frequenciaBairros` in insertion order. -/
def frequencias (nomes : List String) : List (String × Nat) :=
  nomes.foldl (fun m nome => definirAssoc m nome ((buscarAssoc m nome).getD 0 + 1)) []

/-- Winner scan (`if (contagem > maiorContagem)` loop), starting from
`bairroVencedor = ""`, `maiorContagem = 0`. -/
def escolherVencedor (freq : List (String × Nat)) : String × Nat :=
  freq.foldl (fun acc par => if par.2 > acc.2 then par else acc) ("", 0)

/-- Model of `ViaCepService.buscarNomeBairro`. -/
def buscarNomeBairro (consultar : String → Option String) (maxCeps : Nat)
    (ceps : List String) : Option ResultadoOficial :=
  let nomes := nomesResolvidos consultar maxCeps ceps
  let freq := frequencias nomes
  if nomes.length = 0 ∨ freq = [] then none
  else
    let vencedor := escolherVencedor freq
    some { nomeOficial := vencedor.1, fonte := "ViaCEP",
           score := (vencedor.2 : ℚ) / (nomes.length : ℚ) }

/-! ## Clusterer (`deteccao.service.ts`, `clusterizarPares`) -/

/-- Similar pair coming from the pg_trgm query (`interface ParSimilar`). -/
structure ParSimilar where
  idA : String
  idB : String
  nomeA : String
  nomeB : String
  parentId : String
  score : ℚ
deriving DecidableEq, Repr

/-- Root lookup of the union-find `find`, with fuel bounding the parent
chain.  Path compression and the implicit `parent.set(x, x)` insertion
only affect performance, not which root is returned. -/
def encontrar (fuel : Nat) (pai : List (String × String)) (x : String) : String :=
  match fuel with
  | 0 => x
  | fuel + 1 =>
    match buscarAssoc pai x with
    | none => x
    | some y => if y = x then x else encontrar fuel pai y

/-- The union-find `union`: hang the root of `y` under the root of `x`. -/
def unir (fuel : Nat) (pai : List (String × String)) (x y : String) :
    List (String × String) :=
  let raizX := encontrar fuel pai x
  let raizY := encontrar fuel pai y
  if raizX = raizY then pai else definirAssoc pai raizY raizX

/-- Mutable state of `clusterizarPares` while scanning the pairs:
parent pointers, names, per-root score lists, and parent ids. -/
structure EstadoCluster where
  pai : List (String × String)
  nomes : List (String × String)
  scores : List (String × List ℚ)
  parentIds : List (String × String)

/-- One iteration of the `for (const par of pares)` loop. -/
def passoPar (fuel : Nat) (st : EstadoCluster) (par : ParSimilar) : EstadoCluster :=
  let nomes2 := definirAssoc (definirAssoc st.nomes par.idA par.nomeA) par.idB par.nomeB
  let parentIds2 :=
    definirAssoc (definirAssoc st.parentIds par.idA par.parentId) par.idB par.parentId
  let pai2 := unir fuel st.pai par.idA par.idB
  let raiz := encontrar fuel pai2 par.idA
  let scores2 :=
    definirAssoc st.scores raiz ((buscarAssoc st.scores raiz).getD [] ++ [par.score])
  { pai := pai2, nomes := nomes2, scores := scores2, parentIds := parentIds2 }

/-- JavaScript `Math.round(x * 100) / 100` (`Math.round` is
`⌊x + 1/2⌋`). -/
def arredondar2 (q : ℚ) : ℚ := ((⌊q * 100 + 1 / 2⌋ : ℤ) : ℚ) / 100

/-- Model of `DeteccaoService.clusterizarPares`: union-find over the
pairs, grouping by root in `nomes` key order, groups of size ≥ 2 only.
The fuel `pares.length + 1` dominates every parent chain, since each
union adds at most one link. -/
def clusterizarPares (pares : List ParSimilar) (tipo : TipoEntidade) : List GrupoCriado :=
  let fuel := pares.length + 1
  let st := pares.foldl (passoPar fuel) ⟨[], [], [], []⟩
  let gruposPorRaiz := st.nomes.foldl
    (fun acc par =>
      let raiz := encontrar fuel st.pai par.1
      definirAssoc acc raiz ((buscarAssoc acc raiz).getD [] ++ [par.1]))
    []
  gruposPorRaiz.filterMap (fun entrada =>
    let ids := entrada.2
    if ids.length < 2 then none
    else
      let nomesMembros := ids.map (fun id => (buscarAssoc st.nomes id).getD "")
      let scoresGrupo := (buscarAssoc st.scores entrada.1).getD []
      let scoreMedio : ℚ :=
        if 0 < scoresGrupo.length then
          scoresGrupo.foldl (fun a b => a + b) 0 / (scoresGrupo.length : ℚ)
        else 0
      some { tipoEntidade := codigoDe tipo
             parentId := buscarAssoc st.parentIds (ids.headD "")
             nomeNormalizado := ⟨normalizarComPrefixos (nomesMembros.headD "").toList tipo⟩
             registroIds := ids
             nomesMembros := nomesMembros
             scoreMedio := arredondar2 scoreMedio })

/-! ## Transactional merge engine (`merge.service.ts`, `fk-map.ts`) -/

/-- Entry of the declarative FK map (`interface FkRef`).  `tipoId` only
selects the SQL cast (`::uuid` / `::int`) and does not change which rows
are read or written. -/
structure FkRef where
  tabela : String
  coluna : String
  tipoId : String
  pkColuna : Option String
deriving DecidableEq, Repr

/-- The declarative FK map (`FK_MAP`), keyed by numeric entity code;
`FK_MAP[tipo] ?? []` gives `[]` for unknown codes. -/
def fkMap : Nat → List FkRef
  | 1 => [⟨"bairro", "cidade_id", "int", none⟩,
          ⟨"empresa", "cidade_id", "int", none⟩,
          ⟨"pessoa_fisica", "naturalidade_id", "int", none⟩]
  | 2 => [⟨"logradouro", "bairro_id", "uuid", none⟩,
          ⟨"imovel_endereco", "bairro_comercial_id", "uuid", some "imovel_id"⟩,
          ⟨"empresa", "bairro_id", "uuid", none⟩,
          ⟨"property_draft_addresses", "bairro_comercial_id", "uuid", none⟩]
  | 3 => [⟨"imovel", "logradouro_id", "uuid", none⟩,
          ⟨"condominio", "logradouro_id", "uuid", none⟩,
          ⟨"pessoa", "endereco_logradouro_id", "uuid", none⟩,
          ⟨"building_address", "logradouro_id", "uuid", none⟩,
          ⟨"property_drafts", "logradouro_id", "uuid", none⟩]
  | 4 => [⟨"imovel_endereco", "condominio_id", "uuid", some "imovel_id"⟩,
          ⟨"pessoa", "condominio_id", "uuid", none⟩,
          ⟨"building", "condominio_id", "uuid", none⟩,
          ⟨"benfeitoria_condominio", "condominios_id", "uuid", some "benfeitorias_id"⟩,
          ⟨"condominio_imagem", "condominio_id", "uuid", none⟩,
          ⟨"property_draft_addresses", "condominio_id", "uuid", none⟩]
  | _ => []

/-- Status codes of `enum StatusGrupo`. -/
def statusPendente : Nat := 1
/-- Executado. -/
def statusExecutado : Nat := 2
/-- Descartado. -/
def statusDescartado : Nat := 3
/-- Revertido. -/
def statusRevertido : Nat := 4

/-- Row of `ms_grupo_duplicata` as the merge service reads and writes
it (timestamps omitted). -/
structure Grupo where
  tipo_entidade : Nat
  status : Nat
  registro_ids : List String
  registro_canonico_id : Option String
  nome_canonico : Option String
  executado_por : Option String
  total_registros_afetados : Option Nat
  decisao_contexto : Option String
deriving DecidableEq, Repr

/-- Row of `ms_merge_log` (timestamps omitted). -/
structure MergeLog where
  grupo_id : String
  registro_eliminado_id : String
  tabela_afetada : String
  registro_afetado_id : String
  coluna_alterada : String
  valor_anterior : String
  valor_novo : String
  revertido : Bool
deriving DecidableEq, Repr

/-- Host-database state the merge engine touches.  For each referencing
table/column pair, `fkLinhas` holds the rows as `(pk value, FK value)`
in table order; `excluido` and `nome` are the soft-delete flag and the
`nome` column of each entity table. -/
structure BancoHost where
  fkLinhas : String → String → List (String × String)
  excluido : String → String → Bool
  nome : String → String → Option String

/-- Full state: the group table, the `ms_merge_log` rows in insertion
order, and the host database. -/
structure Estado where
  grupos : String → Option Grupo
  logs : List MergeLog
  banco : BancoHost

/-- The `SELECT pk FROM T WHERE C = m` of the merge loop: pk values of
the rows whose FK equals `valor`, in table order. -/
def selecionarPks (linhas : List (String × String)) (valor : String) : List String :=
  (linhas.filter (fun r => r.2 = valor)).map (fun r => r.1)

/-- The `UPDATE T SET C = canônico WHERE C = m` of the merge loop. -/
def redirecionarLinhas (linhas : List (String × String)) (de para : String) :
    List (String × String) :=
  linhas.map (fun r => if r.2 = de then (r.1, para) else r)

/-- Replace one FK row list in the host database. -/
def definirFkLinhas (b : BancoHost) (tab col : String)
    (novas : List (String × String)) : BancoHost :=
  { b with fkLinhas := fun t c => if t = tab ∧ c = col then novas else b.fkLinhas t c }

/-- Set the `excluido` flag of one entity row. -/
def definirExcluido (b : BancoHost) (tab id : String) (valor : Bool) : BancoHost :=
  { b with excluido := fun t i => if t = tab ∧ i = id then valor else b.excluido t i }

/-- Set the `nome` column of one entity row. -/
def definirNome (b : BancoHost) (tab id : String) (valor : String) : BancoHost :=
  { b with nome := fun t i => if t = tab ∧ i = id then some valor else b.nome t i }

/-- Transaction state while `unificar` walks the members: host database,
accumulated `ms_merge_log` rows, and the `totalAlteracoes` counter. -/
structure EstadoMerge where
  banco : BancoHost
  logs : List MergeLog
  total : Nat

/-- The `ms_merge_log` row created for one rewritten FK row. -/
def mkLogUnificar (grupoId canonico membro : String) (fk : FkRef) (pk : String) :
    MergeLog :=
  { grupo_id := grupoId, registro_eliminado_id := membro,
    tabela_afetada := fk.tabela, registro_afetado_id := pk,
    coluna_alterada := fk.coluna, valor_anterior := membro,
    valor_novo := canonico, revertido := false }

/-- Inner loop body of `unificar` for one eliminated member and one FK:
select the affected rows, and if any exist, redirect them and append one
log row per affected pk. -/
def passoFk (grupoId canonico membro : String) (st : EstadoMerge) (fk : FkRef) :
    EstadoMerge :=
  let linhas := st.banco.fkLinhas fk.tabela fk.coluna
  let afetados := selecionarPks linhas membro
  if afetados.isEmpty then st
  else
    { banco := definirFkLinhas st.banco fk.tabela fk.coluna
        (redirecionarLinhas linhas membro canonico)
      logs := st.logs ++ afetados.map (mkLogUnificar grupoId canonico membro fk)
      total := st.total + afetados.length }

/-- Outer loop body of `unificar` for one eliminated member: all FK
redirections, then the soft delete `excluido = true`. -/
def passoMembro (grupoId canonico : String) (fks : List FkRef) (tabelaEnt : String)
    (st : EstadoMerge) (membro : String) : EstadoMerge :=
  let st2 := fks.foldl (passoFk grupoId canonico membro) st
  { st2 with banco := definirExcluido st2.banco tabelaEnt membro true }

/-- Model of `MergeService.unificar`.  Validations (existence, status
Pendente/Revertido, mapped entity table) throw before the transaction;
the chosen canonical is never checked against `registro_ids`.  An error
leaves every table untouched (the pre-state stands). -/
def unificar (s : Estado) (grupoId registroCanonicoId : String)
    (nomeFinal executadoPor decisaoContexto : Option String) :
    Except String (Estado × Nat) :=
  match s.grupos grupoId with
  | none => .error "grupo nao encontrado"
  | some grupo =>
    if grupo.status ≠ statusPendente ∧ grupo.status ≠ statusRevertido then
      .error "apenas grupos pendentes ou revertidos podem ser unificados"
    else
      match tabelaEntidade grupo.tipo_entidade with
      | none => .error "tipo de entidade sem tabela mapeada"
      | some entityTable =>
        let fks := fkMap grupo.tipo_entidade
        let membrosEliminados := grupo.registro_ids.filter
          (fun id => id ≠ registroCanonicoId)
        let fim := membrosEliminados.foldl
          (passoMembro grupoId registroCanonicoId fks entityTable)
          ⟨s.banco, s.logs, 0⟩
        let banco2 :=
          match nomeFinal with
          | some nm => definirNome fim.banco entityTable registroCanonicoId nm
          | none => fim.banco
        let grupo2 : Grupo :=
          { grupo with
            status := statusExecutado
            registro_canonico_id := some registroCanonicoId
            nome_canonico := nomeFinal.elim grupo.nome_canonico some
            executado_por := executadoPor.elim grupo.executado_por some
            total_registros_afetados := some fim.total
            decisao_contexto := decisaoContexto.elim grupo.decisao_contexto some }
        .ok ({ grupos := fun id => if id = grupoId then some grupo2 else s.grupos id,
               logs := fim.logs, banco := banco2 },
             fim.total)

/-- Insertion-order deduplication (`[...new Set(...)]`). -/
def dedupPrimeiraOcorrencia : List String → List String
  | [] => []
  | x :: xs => x :: dedupPrimeiraOcorrencia (xs.filter (fun y => y ≠ x))
termination_by l => l.length
decreasing_by
  have h := (List.filter_sublist (l := xs) (p := fun y => decide (y ≠ x))).length_le
  simp only [List.length_cons]
  omega

/-- One log-row reversal of `reverter`: the
`UPDATE T SET C = valor_anterior WHERE pk = registro_afetado_id` step.
The `fkConfig` lookup only picks the pk column name and SQL cast; in the
model the recorded pk value identifies the row directly. -/
def reverterLog (b : BancoHost) (log : MergeLog) : BancoHost :=
  definirFkLinhas b log.tabela_afetada log.coluna_alterada
    ((b.fkLinhas log.tabela_afetada log.coluna_alterada).map
      (fun r => if r.1 = log.registro_afetado_id then (r.1, log.valor_anterior) else r))

/-- Model of `MergeService.reverter`.  Requires status Executado; with no
pending log rows it is a no-op returning zero; otherwise it restores
every logged FK value, clears `excluido` on the members that appear in
the logs, marks those logs reverted, and sets status Revertido. -/
def reverter (s : Estado) (grupoId : String) (_executadoPor : Option String) :
    Except String (Estado × Nat) :=
  match s.grupos grupoId with
  | none => .error "grupo nao encontrado"
  | some grupo =>
    if grupo.status ≠ statusExecutado then
      .error "apenas grupos executados podem ser revertidos"
    else
      match tabelaEntidade grupo.tipo_entidade with
      | none => .error "tipo de entidade sem tabela mapeada"
      | some entityTable =>
        let logsPendentes := s.logs.filter
          (fun l => l.grupo_id = grupoId ∧ l.revertido = false)
        if logsPendentes.isEmpty then .ok (s, 0)
        else
          let membrosEliminados :=
            dedupPrimeiraOcorrencia (logsPendentes.map (fun l => l.registro_eliminado_id))
          let banco1 := logsPendentes.foldl reverterLog s.banco
          let banco2 := membrosEliminados.foldl
            (fun b m => definirExcluido b entityTable m false) banco1
          let logs2 := s.logs.map (fun l =>
            if l.grupo_id = grupoId ∧ l.revertido = false then
              { l with revertido := true }
            else l)
          let grupo2 : Grupo := { grupo with status := statusRevertido }
          .ok ({ grupos := fun id => if id = grupoId then some grupo2 else s.grupos id,
                 logs := logs2, banco := banco2 },
               logsPendentes.length)

/-- Model of `MergeService.descartar`: only existence is checked — the
status is overwritten with Descartado whatever it was. -/
def descartar (s : Estado) (grupoId : String)
    (executadoPor decisaoContexto : Option String) : Except String Estado :=
  match s.grupos grupoId with
  | none => .error "grupo nao encontrado"
  | some grupo =>
    let grupo2 : Grupo :=
      { grupo with
        status := statusDescartado
        executado_por := executadoPor.elim grupo.executado_por some
        decisao_contexto := decisaoContexto.elim grupo.decisao_contexto some }
    .ok { grupos := fun id => if id = grupoId then some grupo2 else s.grupos id,
          logs := s.logs, banco := s.banco }

/-! ## Specification-side helpers for reasoning about the merge engine -/

/-- Combined effect of redirecting, one member at a time, every FK value
in `ms` to the canonical id. -/
def redirigirTudo (ms : List String) (canonico : String)
    (linhas : List (String × String)) : List (String × String) :=
  linhas.map (fun r => if r.2 ∈ ms then (r.1, canonico) else r)

/-- The log rows `unificar` appends, computed from the pre-merge host
state: for each eliminated member, for each FK, one row per affected
pk. -/
def logsDeMerge (grupoId canonico : String) (fks : List FkRef) (b : BancoHost)
    (ms : List String) : List MergeLog :=
  ms.flatMap (fun m => fks.flatMap (fun fk =>
    (selecionarPks (b.fkLinhas fk.tabela fk.coluna) m).map
      (mkLogUnificar grupoId canonico m fk)))

/-- Effect of one log-row reversal on one row of the `(T, C)` row list
(identity when the log concerns another table/column or another pk). -/
def efeitoLog (T C : String) (log : MergeLog) (r : String × String) :
    String × String :=
  if log.tabela_afetada = T ∧ log.coluna_alterada = C ∧
      r.1 = log.registro_afetado_id then
    (r.1, log.valor_anterior)
  else r

/-! ## Concrete example states used by counterexamples and witnesses -/

/-- A Pending two-member Bairro group used by the C2 example state. -/
def grupoExemploC2 : Grupo :=
  { tipo_entidade := 2, status := 1, registro_ids := ["A", "B"],
    registro_canonico_id := none, nome_canonico := none,
    executado_por := none, total_registros_afetados := none,
    decisao_contexto := none }

/-- Example state for C2: one Pending group `g1 = {A, B}` and one
`logradouro` row referencing `A`. -/
def estadoExemploC2 : Estado :=
  { grupos := fun id => if id = "g1" then some grupoExemploC2 else none
    logs := []
    banco :=
      { fkLinhas := fun t c =>
          if t = "logradouro" ∧ c = "bairro_id" then [("p1", "A")] else []
        excluido := fun _ _ => false
        nome := fun _ _ => none } }

/-- Example state for C3: one group `g2` already Executado. -/
def estadoExemploC3 : Estado :=
  { grupos := fun id =>
      if id = "g2" then
        some { tipo_entidade := 2, status := 2, registro_ids := ["A", "B"],
               registro_canonico_id := some "A", nome_canonico := none,
               executado_por := none, total_registros_afetados := some 0,
               decisao_contexto := none }
      else none
    logs := []
    banco := { fkLinhas := fun _ _ => [], excluido := fun _ _ => false,
               nome := fun _ _ => none } }

/-- Example state for the C1 counterexample: Pending group `g3 = {A, B}`
where the absorbed member `B` has no referencing row anywhere. -/
def estadoExemploC1 : Estado :=
  { grupos := fun id =>
      if id = "g3" then
        some { tipo_entidade := 2, status := 1, registro_ids := ["A", "B"],
               registro_canonico_id := none, nome_canonico := none,
               executado_por := none, total_registros_afetados := none,
               decisao_contexto := none }
      else none
    logs := []
    banco := { fkLinhas := fun _ _ => [], excluido := fun _ _ => false,
               nome := fun _ _ => none } }

/-- Example state for the C1 / C10 witnesses: Pending group
`g4 = {A, B}` where `B` is referenced by one `logradouro` row and one
`empresa` row. -/
def estadoExemploC1W : Estado :=
  { grupos := fun id =>
      if id = "g4" then
        some { tipo_entidade := 2, status := 1, registro_ids := ["A", "B"],
               registro_canonico_id := none, nome_canonico := none,
               executado_por := none, total_registros_afetados := none,
               decisao_contexto := none }
      else none
    logs := []
    banco :=
      { fkLinhas := fun t c =>
          if t = "logradouro" ∧ c = "bairro_id" then [("p1", "B"), ("p2", "A")]
          else if t = "empresa" ∧ c = "bairro_id" then [("p3", "B")]
          else []
        excluido := fun _ _ => false
        nome := fun _ _ => none } }

end Dedup

namespace Dedup

/-! ## C9 — validated members are a subset of the group -/

/-- C9: every validation result built from a model response — by
`parseResposta` or by the batch-path construction — has
`membrosValidos ⊆ registroIds` (ids the model invented are filtered
out), and when the response carries no id array, `membrosValidos` is the
full `registroIds` list. -/
theorem claim_C9_membros_validos
    (conteudo : Option RespostaGrupoJson) (resp : RespostaGrupoJson)
    (registroIds : List String) :
    (parseResposta conteudo registroIds).membrosValidos ⊆ registroIds ∧
    (validacaoBatchEntrada resp registroIds).membrosValidos ⊆ registroIds ∧
    (∀ json, conteudo = some json → json.membros_validos_ids = none →
      (parseResposta conteudo registroIds).membrosValidos = registroIds) ∧
    (resp.membros_validos_ids = none →
      (validacaoBatchEntrada resp registroIds).membrosValidos = registroIds) := by
  refine ⟨?_, ?_, ?_, ?_⟩
  · cases conteudo with
    | none => simp [parseResposta]
    | some json =>
      cases h : json.membros_validos_ids with
      | none => simp [parseResposta, h]
      | some ids =>
        intro a ha
        simp only [parseResposta, h, List.mem_filter, decide_eq_true_eq] at ha
        exact ha.2
  · cases h : resp.membros_validos_ids with
    | none => simp [validacaoBatchEntrada, h]
    | some ids =>
      intro a ha
      simp only [validacaoBatchEntrada, h, List.mem_filter, decide_eq_true_eq] at ha
      exact ha.2
  · rintro json rfl hnone
    simp [parseResposta, hnone]
  · intro hnone
    simp [validacaoBatchEntrada, hnone]

/-- Witness for C9 at a concrete response with no id array: both paths
return the full member list. -/
theorem claim_C9_witness :
    (parseResposta (some ⟨true, none, none, none, none⟩) ["a", "b"]).membrosValidos
        = ["a", "b"] ∧
    (validacaoBatchEntrada ⟨true, none, none, none, none⟩ ["a", "b"]).membrosValidos
        = ["a", "b"] :=
  ⟨(claim_C9_membros_validos (some ⟨true, none, none, none, none⟩)
      ⟨true, none, none, none, none⟩ ["a", "b"]).2.2.1 _ rfl rfl,
   (claim_C9_membros_validos (some ⟨true, none, none, none, none⟩)
      ⟨true, none, none, none, none⟩ ["a", "b"]).2.2.2 rfl⟩

/-! ## C5 — LLM batch failure: groups persist, but with the llm tag -/

/-- C5 counterexample: with the validator configured (`disponivel`) and
the batch call failed (empty result map, so the validation slot is
`null`), the group is persisted with `detalhes_llm = null` but with
`fonte = "pg_trgm+llm"` — not the plain trigram tag the claim
demands. -/
theorem claim_C5_counterexample :
    (persistirGrupos true
        [{ tipoEntidade := 2, parentId := some "100", nomeNormalizado := "aurora",
           registroIds := ["a", "b"], nomesMembros := ["Jardim Aurora", "Jd Aurora"],
           scoreMedio := 1 }]
        (resultadoBatchFalhaSemCache 1)).1.map (fun p => (p.fonte, p.detalhes_llm)) =
      [("pg_trgm+llm", none)] ∧ "pg_trgm+llm" ≠ "pg_trgm" := by
  constructor
  · rfl
  · decide

/-- C5 amended: when the batch validation call fails (every slot of the
parallel validation array is `null`), every group of the batch is still
persisted, unchanged and in order, with `detalhes_llm = null` and with
`fonte` decided solely by whether the validator is configured:
`"pg_trgm+llm"` when it is, `"pg_trgm"` otherwise — never the plain
trigram tag in a configured run. -/
theorem claim_C5_amended (disponivel : Bool) (grupos : List GrupoCriado) :
    persistirGrupos disponivel grupos (resultadoBatchFalhaSemCache grupos.length) =
      (grupos.map (fun g => mkGrupoPersistido disponivel g none), 0) ∧
    ∀ p ∈ (persistirGrupos disponivel grupos
        (resultadoBatchFalhaSemCache grupos.length)).1,
      p.detalhes_llm = none ∧
      p.fonte = (if disponivel then "pg_trgm+llm" else "pg_trgm") ∧
      p.status = 1 := by
  have principal : ∀ gs : List GrupoCriado,
      persistirGrupos disponivel gs (resultadoBatchFalhaSemCache gs.length) =
        (gs.map (fun g => mkGrupoPersistido disponivel g none), 0) := by
    intro gs
    induction gs with
    | nil => rfl
    | cons g gs ih =>
      simp only [persistirGrupos, resultadoBatchFalhaSemCache, List.length_cons,
        List.replicate_succ, List.tail_cons, List.head?_cons, Option.getD_some]
      rw [show (List.replicate gs.length (none : Option ValidacaoLLM)) =
        resultadoBatchFalhaSemCache gs.length from rfl, ih]
      simp
  refine ⟨principal grupos, ?_⟩
  intro p hp
  rw [principal grupos] at hp
  simp only [List.mem_map] at hp
  obtain ⟨g, -, rfl⟩ := hp
  exact ⟨rfl, rfl, rfl⟩

/-- Witness for C5 at a concrete one-group batch with the validator
unconfigured. -/
theorem claim_C5_witness :
    persistirGrupos false
        [{ tipoEntidade := 2, parentId := none, nomeNormalizado := "centro",
           registroIds := ["x", "y"], nomesMembros := ["Centro", "Çentro"],
           scoreMedio := 1 }]
        (resultadoBatchFalhaSemCache 1) =
      ([mkGrupoPersistido false
          { tipoEntidade := 2, parentId := none, nomeNormalizado := "centro",
            registroIds := ["x", "y"], nomesMembros := ["Centro", "Çentro"],
            scoreMedio := 1 } none], 0) :=
  (claim_C5_amended false _).1

/-! ## C8 — Dice similarity bounds -/

/-- The intersection counter grows by at most one per bigram of `A`. -/
theorem contarIntersecao_le_comprimento (bgsA : List (Char × Char)) :
    ∀ (contB : List ((Char × Char) × Nat)) (acc : Nat),
      contarIntersecao bgsA contB acc ≤ acc + bgsA.length := by
  induction bgsA with
  | nil => intro contB acc; simp [contarIntersecao]
  | cons bg resto ih =>
    intro contB acc
    simp only [contarIntersecao]
    cases h : buscarAssoc contB bg with
    | none =>
      calc contarIntersecao resto contB acc ≤ acc + resto.length := ih contB acc
        _ ≤ acc + (bg :: resto).length := by simp only [List.length_cons]; omega
    | some n =>
      by_cases hn : 0 < n
      · simp only [if_pos hn]
        calc contarIntersecao resto (definirAssoc contB bg (n - 1)) (acc + 1)
            ≤ (acc + 1) + resto.length := ih _ _
          _ ≤ acc + (bg :: resto).length := by simp only [List.length_cons]; omega
      · simp only [if_neg hn]
        calc contarIntersecao resto contB acc ≤ acc + resto.length := ih contB acc
          _ ≤ acc + (bg :: resto).length := by simp only [List.length_cons]; omega

/-- Consuming one occurrence lowers the total count of the map by one. -/
theorem soma_definir_sub (k : Char × Char) (n : Nat) (hn : 0 < n) :
    ∀ m : List ((Char × Char) × Nat), buscarAssoc m k = some n →
      (m.map Prod.snd).sum =
        ((definirAssoc m k (n - 1)).map Prod.snd).sum + 1 := by
  intro m
  induction m with
  | nil => intro h; simp [buscarAssoc] at h
  | cons par resto ih =>
    obtain ⟨k0, v0⟩ := par
    intro h
    simp only [buscarAssoc] at h
    by_cases hk : k0 = k
    · simp only [if_pos hk] at h
      injection h with h
      subst h
      simp [definirAssoc, if_pos hk]
      omega
    · simp only [if_neg hk] at h
      simp [definirAssoc, if_neg hk, ih h]
      omega

/-- The intersection counter never exceeds the total count of the map of
`B`. -/
theorem contarIntersecao_le_soma (bgsA : List (Char × Char)) :
    ∀ (contB : List ((Char × Char) × Nat)) (acc : Nat),
      contarIntersecao bgsA contB acc ≤ acc + (contB.map Prod.snd).sum := by
  induction bgsA with
  | nil => intro contB acc; simp [contarIntersecao]
  | cons bg resto ih =>
    intro contB acc
    simp only [contarIntersecao]
    cases h : buscarAssoc contB bg with
    | none => calc contarIntersecao resto contB acc
          ≤ acc + (contB.map Prod.snd).sum := ih contB acc
    | some n =>
      by_cases hn : 0 < n
      · simp only [if_pos hn]
        have hsub := soma_definir_sub bg n hn contB h
        calc contarIntersecao resto (definirAssoc contB bg (n - 1)) (acc + 1)
            ≤ (acc + 1) + ((definirAssoc contB bg (n - 1)).map Prod.snd).sum := ih _ _
          _ = acc + (contB.map Prod.snd).sum := by omega
      · simp only [if_neg hn]
        exact ih contB acc

/-- Counting a bigram raises the total count of the map by one. -/
theorem soma_definir_incr (k : Char × Char) :
    ∀ m : List ((Char × Char) × Nat),
      ((definirAssoc m k ((buscarAssoc m k).getD 0 + 1)).map Prod.snd).sum =
        (m.map Prod.snd).sum + 1 := by
  intro m
  induction m with
  | nil => simp [definirAssoc, buscarAssoc]
  | cons par resto ih =>
    obtain ⟨k0, v0⟩ := par
    by_cases hk : k0 = k
    · simp [definirAssoc, buscarAssoc, if_pos hk]
      omega
    · simp [definirAssoc, buscarAssoc, if_neg hk, ih]
      omega

/-- Total count of the counting map = number of bigrams of `B`. -/
theorem soma_contarBigramas (bgs : List (Char × Char)) :
    ((contarBigramas bgs).map Prod.snd).sum = bgs.length := by
  induction bgs using List.reverseRecOn with
  | nil => rfl
  | append_singleton resto bg ih =>
    simp only [contarBigramas, List.foldl_append, List.foldl_cons, List.foldl_nil]
    rw [show List.foldl (fun m bg => definirAssoc m bg ((buscarAssoc m bg).getD 0 + 1))
      [] resto = contarBigramas resto from rfl]
    rw [soma_definir_incr, ih]
    simp

/-- A list of `n ≥ 2` characters has `n - 1` bigrams. -/
theorem comprimento_gerarBigramas (s : List Char) :
    (gerarBigramas s).length = s.length - 1 := by
  simp only [gerarBigramas, List.length_zip, List.length_tail]
  omega

/-- C8 counterexample: the Dice similarity of the two distinct
normalized strings `"aba"` and `"bab"` is exactly 1 (their bigram
multisets coincide), so «equals 1 iff the normalized strings are equal»
fails in the only-if direction. -/
theorem claim_C8_counterexample :
    similaridadeDice "aba".toList "bab".toList = 1 ∧
      "aba".toList ≠ "bab".toList := by
  constructor
  · simp [similaridadeDice, gerarBigramas, contarIntersecao,
      contarBigramas, definirAssoc, buscarAssoc]
    norm_num
  · decide

/-- C8 amended: the bigram-Dice similarity always lies in `[0, 1]`, and
equal inputs give exactly 1; but 1 is also reached by distinct strings
with equal bigram multisets, so 1 does not characterize equality. -/
theorem claim_C8_amended (a b : List Char) :
    0 ≤ similaridadeDice a b ∧ similaridadeDice a b ≤ 1 ∧
      (a = b → similaridadeDice a b = 1) := by
  by_cases hab : a = b
  · simp [similaridadeDice, hab]
  · by_cases hcurto : a.length < 2 ∨ b.length < 2
    · simp [similaridadeDice, hab, hcurto]
    · push_neg at hcurto
      obtain ⟨ha2, hb2⟩ := hcurto
      have hIA := contarIntersecao_le_comprimento (gerarBigramas a)
        (contarBigramas (gerarBigramas b)) 0
      have hIB := contarIntersecao_le_soma (gerarBigramas a)
        (contarBigramas (gerarBigramas b)) 0
      rw [soma_contarBigramas] at hIB
      simp only [Nat.zero_add] at hIA hIB
      have hla : 1 ≤ (gerarBigramas a).length := by
        rw [comprimento_gerarBigramas]; omega
      have hlb : 1 ≤ (gerarBigramas b).length := by
        rw [comprimento_gerarBigramas]; omega
      simp only [similaridadeDice, if_neg hab, if_neg (by omega :
        ¬(a.length < 2 ∨ b.length < 2))]
      set I := contarIntersecao (gerarBigramas a)
        (contarBigramas (gerarBigramas b)) 0 with hI
      have hden : (0 : ℚ) < ((gerarBigramas a).length + (gerarBigramas b).length : ℚ) := by
        positivity
      refine ⟨?_, ?_, fun h => absurd h hab⟩
      · positivity
      · rw [div_le_one hden]
        have h1 : (I : ℚ) ≤ (gerarBigramas a).length := by exact_mod_cast hIA
        have h2 : (I : ℚ) ≤ (gerarBigramas b).length := by exact_mod_cast hIB
        nlinarith

/-- Witness for C8 at equal concrete inputs: similarity is 1 and the
bounds hold. -/
theorem claim_C8_witness :
    0 ≤ similaridadeDice "rua goias".toList "rua goias".toList ∧
      similaridadeDice "rua goias".toList "rua goias".toList = 1 :=
  ⟨(claim_C8_amended _ _).1, (claim_C8_amended _ _).2.2 rfl⟩

/-! ## C6 — neighborhood majority vote -/

/-- Lookup after a `set`: the written key reads back, others are
untouched. -/
theorem buscarAssoc_definirAssoc {α β : Type} [DecidableEq α]
    (m : List (α × β)) (chave k : α) (v : β) :
    buscarAssoc (definirAssoc m chave v) k =
      if k = chave then some v else buscarAssoc m k := by
  induction m with
  | nil =>
    by_cases h : k = chave
    · subst h; simp [definirAssoc, buscarAssoc]
    · simp [definirAssoc, buscarAssoc, h, Ne.symm h]
  | cons par resto ih =>
    obtain ⟨k0, v0⟩ := par
    by_cases h0 : k0 = chave
    · subst h0
      by_cases h : k = k0
      · subst h; simp [definirAssoc, buscarAssoc]
      · simp [definirAssoc, buscarAssoc, h, Ne.symm h]
    · by_cases h : k = k0
      · subst h
        simp [definirAssoc, buscarAssoc, if_neg h0, h0, ih]
      · simp [definirAssoc, buscarAssoc, if_neg h0, h, Ne.symm h, ih]

/-- Keys after a `set`: unchanged for an existing key, appended for a new
one. -/
theorem chaves_definirAssoc {α β : Type} [DecidableEq α]
    (m : List (α × β)) (chave : α) (v : β) :
    (definirAssoc m chave v).map Prod.fst =
      if chave ∈ m.map Prod.fst then m.map Prod.fst
      else m.map Prod.fst ++ [chave] := by
  induction m with
  | nil => simp [definirAssoc]
  | cons par resto ih =>
    obtain ⟨k0, v0⟩ := par
    by_cases h0 : k0 = chave
    · subst h0
      simp [definirAssoc]
    · simp only [definirAssoc, if_neg h0, List.map_cons, List.mem_cons]
      rw [ih]
      by_cases hmem : chave ∈ resto.map Prod.fst
      · simp [hmem, h0]
      · simp [hmem, h0, Ne.symm h0]

/-- A successful lookup exhibits a pair of the list. -/
theorem buscarAssoc_mem {α β : Type} [DecidableEq α]
    (m : List (α × β)) (k : α) (v : β) (h : buscarAssoc m k = some v) :
    (k, v) ∈ m := by
  induction m with
  | nil => simp [buscarAssoc] at h
  | cons par resto ih =>
    obtain ⟨k0, v0⟩ := par
    simp only [buscarAssoc] at h
    by_cases h0 : k0 = k
    · subst h0
      simp only [if_pos rfl] at h
      injection h with h
      subst h
      exact List.mem_cons_self _ _
    · simp only [if_neg h0] at h
      exact List.mem_cons_of_mem _ (ih h)

/-- A lookup succeeds exactly on the keys. -/
theorem buscarAssoc_isSome_iff {α β : Type} [DecidableEq α]
    (m : List (α × β)) (k : α) :
    (∃ v, buscarAssoc m k = some v) ↔ k ∈ m.map Prod.fst := by
  induction m with
  | nil => simp [buscarAssoc]
  | cons par resto ih =>
    obtain ⟨k0, v0⟩ := par
    by_cases h0 : k0 = k
    · subst h0
      simp [buscarAssoc]
    · simp [buscarAssoc, if_neg h0, ih, Ne.symm h0]

/-- With unique keys, every pair of the list reads back. -/
theorem mem_buscarAssoc {α β : Type} [DecidableEq α]
    (m : List (α × β)) (p : α × β) (hmem : p ∈ m)
    (hnodup : (m.map Prod.fst).Nodup) : buscarAssoc m p.1 = some p.2 := by
  induction m with
  | nil => simp at hmem
  | cons par resto ih =>
    obtain ⟨k0, v0⟩ := par
    simp only [List.map_cons, List.nodup_cons] at hnodup
    rcases List.mem_cons.mp hmem with h | h
    · subst h
      simp [buscarAssoc]
    · have hk : k0 ≠ p.1 := by
        intro hk
        exact hnodup.1 (hk ▸ List.mem_map_of_mem Prod.fst h)
      simp only [buscarAssoc, if_neg hk]
      exact ih h hnodup.2

/-- Position of an element in an appended list when it misses the front
part. -/
theorem indexOf_append_nao_mem (a : String) (l1 l2 : List String)
    (h : a ∉ l1) : (l1 ++ l2).indexOf a = l1.length + l2.indexOf a := by
  induction l1 with
  | nil => simp
  | cons c l1 ih =>
    have hc : c ≠ a := by rintro rfl; exact h (List.mem_cons_self _ _)
    simp only [List.cons_append, List.indexOf_cons_ne _ hc,
      ih (fun hm => h (List.mem_cons_of_mem _ hm)), List.length_cons]
    omega

/-- One name appended to the tally. -/
theorem frequencias_concat (nomes : List String) (n : String) :
    frequencias (nomes ++ [n]) =
      definirAssoc (frequencias nomes) n
        ((buscarAssoc (frequencias nomes) n).getD 0 + 1) := by
  simp [frequencias, List.foldl_append]

/-- The tally holds exactly the count of every name seen. -/
theorem frequencias_buscar (nomes : List String) (k : String) :
    buscarAssoc (frequencias nomes) k =
      if k ∈ nomes then some (nomes.count k) else none := by
  induction nomes using List.reverseRecOn with
  | nil => simp [frequencias, buscarAssoc]
  | append_singleton resto n ih =>
    rw [frequencias_concat, buscarAssoc_definirAssoc]
    by_cases hk : k = n
    · subst hk
      simp only [if_pos rfl, ih, List.mem_append, List.mem_singleton, or_true,
        List.count_append, if_pos trivial]
      by_cases hmem : k ∈ resto
      · simp [hmem, List.count_singleton]
      · simp [hmem, List.count_eq_zero_of_not_mem hmem, List.count_singleton]
    · simp only [if_neg hk, ih, List.mem_append, List.mem_singleton, hk, or_false,
        List.count_append]
      by_cases hmem : k ∈ resto
      · simp [hmem, List.count_singleton, hk]
      · simp [hmem]

/-- Keys of the tally lie in `nomes` and appear in first-occurrence
order: their positions in `nomes` strictly increase along the key
list. -/
theorem frequencias_chaves (nomes : List String) :
    (∀ k ∈ (frequencias nomes).map Prod.fst, k ∈ nomes) ∧
    List.Pairwise (fun a b => nomes.indexOf a < nomes.indexOf b)
      ((frequencias nomes).map Prod.fst) := by
  induction nomes using List.reverseRecOn with
  | nil => simp [frequencias]
  | append_singleton resto n ih =>
    obtain ⟨ihMem, ihPar⟩ := ih
    rw [frequencias_concat, chaves_definirAssoc]
    by_cases hmem : n ∈ (frequencias resto).map Prod.fst
    · simp only [if_pos hmem]
      refine ⟨fun k hk => List.mem_append_left _ (ihMem k hk), ?_⟩
      refine List.Pairwise.imp_of_mem ?_ ihPar
      intro a b ha hb hab
      rw [List.indexOf_append_of_mem (ihMem a ha),
        List.indexOf_append_of_mem (ihMem b hb)]
      exact hab
    · have hnew : n ∉ resto := by
        intro hn
        apply hmem
        apply (buscarAssoc_isSome_iff (frequencias resto) n).mp
        exact ⟨resto.count n, by rw [frequencias_buscar]; simp [hn]⟩
      simp only [if_neg hmem]
      constructor
      · intro k hk
        rcases List.mem_append.mp hk with hk | hk
        · exact List.mem_append_left _ (ihMem k hk)
        · simp only [List.mem_singleton] at hk
          subst hk
          simp
      · rw [List.pairwise_append]
        refine ⟨?_, List.pairwise_singleton _ _, ?_⟩
        · refine List.Pairwise.imp_of_mem ?_ ihPar
          intro a b ha hb hab
          rw [List.indexOf_append_of_mem (ihMem a ha),
            List.indexOf_append_of_mem (ihMem b hb)]
          exact hab
        · intro a ha b hb
          simp only [List.mem_singleton] at hb
          subst hb
          rw [List.indexOf_append_of_mem (ihMem a ha),
            indexOf_append_nao_mem _ _ _ hnew]
          have := List.indexOf_lt_length.mpr (ihMem a ha)
          simp only [List.indexOf_cons_self]
          omega

/-- Characterization of the winner scan: either nothing beats the seed,
or the result is the first entry of the list whose count strictly
exceeds everything before it (and nothing after exceeds it). -/
theorem escolherVencedor_spec (l : List (String × Nat)) (acar : String × Nat) :
    (l.foldl (fun acc par => if par.2 > acc.2 then par else acc) acar = acar ∧
      ∀ p ∈ l, p.2 ≤ acar.2) ∨
    (∃ l1 l2,
      l = l1 ++ (l.foldl (fun acc par => if par.2 > acc.2 then par else acc) acar) :: l2 ∧
      acar.2 < (l.foldl (fun acc par => if par.2 > acc.2 then par else acc) acar).2 ∧
      (∀ p ∈ l1, p.2 < (l.foldl (fun acc par => if par.2 > acc.2 then par else acc) acar).2) ∧
      (∀ p ∈ l2, p.2 ≤ (l.foldl (fun acc par => if par.2 > acc.2 then par else acc) acar).2)) := by
  induction l generalizing acar with
  | nil => left; simp
  | cons p0 resto ih =>
    by_cases hp0 : p0.2 > acar.2
    · right
      simp only [List.foldl_cons, if_pos hp0]
      rcases ih p0 with ⟨heq, hle⟩ | ⟨l1, l2, hsplit, hlt, hl1, hl2⟩
      · refine ⟨[], resto, ?_, ?_, ?_, ?_⟩
        · simp [heq]
        · rw [heq]; exact hp0
        · simp
        · rw [heq]; exact hle
      · refine ⟨p0 :: l1, l2, ?_, ?_, ?_, ?_⟩
        · rw [List.cons_append, ← hsplit]
        · omega
        · intro p hp
          rcases List.mem_cons.mp hp with hp | hp
          · subst hp; omega
          · exact hl1 p hp
        · exact hl2
    · simp only [List.foldl_cons, if_neg hp0]
      rcases ih acar with ⟨heq, hle⟩ | ⟨l1, l2, hsplit, hlt, hl1, hl2⟩
      · left
        refine ⟨heq, ?_⟩
        intro p hp
        rcases List.mem_cons.mp hp with hp | hp
        · subst hp; omega
        · exact hle p hp
      · right
        refine ⟨p0 :: l1, l2, ?_, hlt, ?_, hl2⟩
        · rw [List.cons_append, ← hsplit]
        · intro p hp
          rcases List.mem_cons.mp hp with hp | hp
          · subst hp; omega
          · exact hl1 p hp

/-- C6: `buscarNomeBairro` returns a miss when no postal code resolves,
and otherwise the name with the most supporting resolved codes, with
`fonte = "ViaCEP"` and `score = wins / resolved`; ties go to the
first-seen name (smallest first-occurrence index among the maximizers). -/
theorem claim_C6_votacao (consultar : String → Option String) (maxCeps : Nat)
    (ceps : List String) :
    (nomesResolvidos consultar maxCeps ceps = [] →
      buscarNomeBairro consultar maxCeps ceps = none) ∧
    (nomesResolvidos consultar maxCeps ceps ≠ [] →
      ∃ r, buscarNomeBairro consultar maxCeps ceps = some r ∧
        r.fonte = "ViaCEP" ∧
        r.nomeOficial ∈ nomesResolvidos consultar maxCeps ceps ∧
        r.score =
          ((nomesResolvidos consultar maxCeps ceps).count r.nomeOficial : ℚ) /
            ((nomesResolvidos consultar maxCeps ceps).length : ℚ) ∧
        (∀ n ∈ nomesResolvidos consultar maxCeps ceps,
          (nomesResolvidos consultar maxCeps ceps).count n ≤
            (nomesResolvidos consultar maxCeps ceps).count r.nomeOficial) ∧
        (∀ n ∈ nomesResolvidos consultar maxCeps ceps,
          (nomesResolvidos consultar maxCeps ceps).count n =
              (nomesResolvidos consultar maxCeps ceps).count r.nomeOficial →
            (nomesResolvidos consultar maxCeps ceps).indexOf r.nomeOficial ≤
              (nomesResolvidos consultar maxCeps ceps).indexOf n)) := by
  set nomes := nomesResolvidos consultar maxCeps ceps with hnomes
  constructor
  · intro h
    simp [buscarNomeBairro, ← hnomes, h]
  · intro hne
    set freq := frequencias nomes with hfreq
    obtain ⟨hchavesMem, hchavesPar⟩ := frequencias_chaves nomes
    have hchavesNodup : (freq.map Prod.fst).Nodup := by
      refine List.Pairwise.imp ?_ hchavesPar
      intro a b hab
      intro hEq
      subst hEq
      exact lt_irrefl _ hab
    have hparesCount : ∀ p ∈ freq, p.1 ∈ nomes ∧ p.2 = nomes.count p.1 := by
      intro p hp
      have hlook := mem_buscarAssoc freq p hp hchavesNodup
      rw [hfreq, frequencias_buscar] at hlook
      by_cases hmem : p.1 ∈ nomes
      · simp only [if_pos hmem] at hlook
        injection hlook with hlook
        exact ⟨hmem, hlook.symm⟩
      · simp [hmem] at hlook
    have hfreqNe : freq ≠ [] := by
      obtain ⟨n0, hn0⟩ := List.exists_mem_of_ne_nil nomes hne
      intro hcon
      have := frequencias_buscar nomes n0
      rw [← hfreq, hcon] at this
      simp [buscarAssoc, hn0] at this
    rcases escolherVencedor_spec freq ("", 0) with ⟨heq, hle⟩ | hspec
    · exfalso
      obtain ⟨p0, hp0⟩ := List.exists_mem_of_ne_nil freq hfreqNe
      have hcount := (hparesCount p0 hp0).2
      have hmem := (hparesCount p0 hp0).1
      have hpos : 0 < nomes.count p0.1 := List.count_pos_iff.mpr hmem
      have := hle p0 hp0
      simp only at this
      omega
    · obtain ⟨l1, l2, hsplit, hpos, hl1, hl2⟩ := hspec
      set venc := freq.foldl (fun acc par => if par.2 > acc.2 then par else acc) ("", 0)
        with hvenc
      have hvencMem : venc ∈ freq := by rw [hsplit]; simp
      have hvencCount := hparesCount venc hvencMem
      have hmax : ∀ p ∈ freq, p.2 ≤ venc.2 := by
        intro p hp
        rw [hsplit] at hp
        rcases List.mem_append.mp hp with hp | hp
        · exact le_of_lt (hl1 p hp)
        · rcases List.mem_cons.mp hp with hp | hp
          · subst hp; exact le_refl _
          · exact hl2 p hp
      refine ⟨{ nomeOficial := venc.1, fonte := "ViaCEP",
                score := (venc.2 : ℚ) / (nomes.length : ℚ) }, ?_, rfl, ?_, ?_, ?_, ?_⟩
      · simp only [buscarNomeBairro, ← hnomes, ← hfreq]
        rw [if_neg]
        · rfl
        · rintro (h | h)
          · exact hne (List.length_eq_zero.mp h)
          · exact hfreqNe h
      · exact hvencCount.1
      · simp only [hvencCount.2]
      · intro n hn
        have hlook : buscarAssoc freq n = some (nomes.count n) := by
          rw [hfreq, frequencias_buscar, if_pos hn]
        have hpar := buscarAssoc_mem freq n _ hlook
        have := hmax _ hpar
        simp only at this
        rw [hvencCount.2] at this
        exact this
      · intro n hn hcnt
        by_cases hsame : n = venc.1
        · subst hsame; exact le_refl _
        have hlook : buscarAssoc freq n = some (nomes.count n) := by
          rw [hfreq, frequencias_buscar, if_pos hn]
        have hpar := buscarAssoc_mem freq n _ hlook
        rw [hsplit] at hpar
        rcases List.mem_append.mp hpar with hp | hp
        · exfalso
          have := hl1 _ hp
          simp only at this
          rw [← hvencCount.2] at hcnt
          omega
        · rcases List.mem_cons.mp hp with hp | hp
          · exfalso
            apply hsame
            have : n = venc.1 := congrArg Prod.fst hp
            exact this
          · -- `n` sits strictly after the winner in the key list, so its
            -- first occurrence comes later
            have hchaves : freq.map Prod.fst =
                l1.map Prod.fst ++ venc.1 :: l2.map Prod.fst := by
              rw [hsplit]; simp
            rw [hchaves] at hchavesPar
            have hpairs := (List.pairwise_append.mp hchavesPar).2.1
            rw [List.pairwise_cons] at hpairs
            exact le_of_lt (hpairs.1 n (List.mem_map_of_mem Prod.fst hp))

/-- Witness for C6: an all-miss input yields a miss, and a concrete
resolving input yields a ViaCEP-tagged winner. -/
theorem claim_C6_witness :
    buscarNomeBairro (fun _ => none) 10 ["1", "2"] = none ∧
    ∃ r, buscarNomeBairro
        (fun cep => if cep = "3" then some "Y" else some "X") 10
        ["1", "2", "3"] = some r ∧ r.fonte = "ViaCEP" := by
  constructor
  · exact (claim_C6_votacao (fun _ => none) 10 ["1", "2"]).1 (by decide)
  · obtain ⟨r, hr, hfonte, -⟩ :=
      (claim_C6_votacao (fun cep => if cep = "3" then some "Y" else some "X") 10
        ["1", "2", "3"]).2 (by decide)
    exact ⟨r, hr, hfonte⟩

/-! ## C4 — score averaging drops the scores of absorbed roots -/

/-- C4: on the pairs `(q,r,0.5), (s,t,0.9), (r,s,0.7)` the clusterer
unites everything into one component `{q,r,s,t}` whose edges score
`0.5, 0.9, 0.7` — the claimed mean is `round(0.7, 2) = 0.7` — but the
code keeps score lists keyed by the union-find root *at insertion time*:
when `(r,s)` merges the two components, the score list of the absorbed
root `s` (holding `0.9`) is never folded in, so the emitted `scoreMedio`
is `round((0.5 + 0.7)/2, 2) = 0.6`. -/
theorem claim_C4_avaliacao :
    (clusterizarPares
        [{ idA := "q", idB := "r", nomeA := "Ns", nomeB := "Nr",
           parentId := "1", score := 1/2 },
         { idA := "s", idB := "t", nomeA := "Nt", nomeB := "Nu",
           parentId := "1", score := 9/10 },
         { idA := "r", idB := "s", nomeA := "Nr", nomeB := "Nt",
           parentId := "1", score := 7/10 }] .Logradouro).map
      (fun g => g.registroIds) = [["q", "r", "s", "t"]] ∧
    (clusterizarPares
        [{ idA := "q", idB := "r", nomeA := "Ns", nomeB := "Nr",
           parentId := "1", score := 1/2 },
         { idA := "s", idB := "t", nomeA := "Nt", nomeB := "Nu",
           parentId := "1", score := 9/10 },
         { idA := "r", idB := "s", nomeA := "Nr", nomeB := "Nt",
           parentId := "1", score := 7/10 }] .Logradouro).map
      (fun g => g.scoreMedio) =
      [arredondar2 ((0 + 1/2 + 7/10) / ((2 : ℕ) : ℚ))] ∧
    arredondar2 ((0 + 1/2 + 7/10) / ((2 : ℕ) : ℚ)) = 3/5 ∧
    arredondar2 ((0 + 1/2 + 9/10 + 7/10) / 3) = 7/10 ∧
    (3/5 : ℚ) ≠ 7/10 := by
  refine ⟨by decide, rfl, ?_, ?_, by norm_num⟩
  · rw [show ((2 : ℕ) : ℚ) = (2 : ℚ) by norm_num]
    norm_num [arredondar2]
  · norm_num [arredondar2]

/-! ## C2 — merge preconditions: membership is never checked -/

/-- C2 counterexample: in `estadoExemploC2` the group `g1 = {A, B}` is
Pendente and `"Z"` is not a member, yet `unificar(g1, Z)` succeeds — no
error is raised — and it rewrites the host table (the `logradouro` row
now references `Z`) and soft-deletes both members. -/
theorem claim_C2_counterexample :
    estadoExemploC2.grupos "g1" = some grupoExemploC2 ∧
    grupoExemploC2.status = statusPendente ∧
    "Z" ∉ grupoExemploC2.registro_ids ∧
    estadoExemploC2.banco.fkLinhas "logradouro" "bairro_id" = [("p1", "A")] ∧
    (match unificar estadoExemploC2 "g1" "Z" none none none with
     | .ok (s2, _) =>
       some (s2.banco.fkLinhas "logradouro" "bairro_id",
             s2.banco.excluido "bairro" "A", s2.banco.excluido "bairro" "B")
     | .error _ => none) = some ([("p1", "Z")], true, true) := by
  refine ⟨rfl, rfl, by decide, rfl, by decide⟩

/-- C2 amended: `unificar` performs the merge exactly when the group
exists, its status is Pendente or Revertido, and its entity kind has a
mapped table; the chosen canonical id is never checked against
`registro_ids` (a non-member canonical still merges, absorbing every
member).  When a checked precondition fails the call raises an error and,
the checks happening before the transaction, leaves every table
unchanged. -/
theorem claim_C2_amended (s : Estado) (gid cid : String)
    (nf ep dc : Option String) :
    (∃ out, unificar s gid cid nf ep dc = Except.ok out) ↔
      ∃ g, s.grupos gid = some g ∧
        (g.status = statusPendente ∨ g.status = statusRevertido) ∧
        (tabelaEntidade g.tipo_entidade).isSome := by
  constructor
  · rintro ⟨out, hout⟩
    unfold unificar at hout
    split at hout
    · exact absurd hout (by simp)
    next g hg =>
      split at hout
      · exact absurd hout (by simp)
      next hst =>
        split at hout
        · exact absurd hout (by simp)
        next tab htab =>
          refine ⟨g, hg, ?_, by rw [htab]; rfl⟩
          by_cases h1 : g.status = statusPendente
          · exact Or.inl h1
          · exact Or.inr (by tauto)
  · rintro ⟨g, hg, hst, htab⟩
    cases htabEq : tabelaEntidade g.tipo_entidade with
    | none => rw [htabEq] at htab; exact absurd htab (by simp)
    | some tab =>
      unfold unificar
      simp only [hg]
      rw [if_neg (by tauto)]
      simp only [htabEq]
      exact ⟨_, rfl⟩

/-- Witness for C2: a member canonical on the example state merges
fine. -/
theorem claim_C2_witness :
    ∃ out, unificar estadoExemploC2 "g1" "A" none none none = Except.ok out :=
  (claim_C2_amended estadoExemploC2 "g1" "A" none none none).mpr
    ⟨grupoExemploC2, rfl, Or.inl rfl, rfl⟩

/-! ## C3 — status machine: discard ignores the current status -/

/-- C3 counterexample: the group `g2` of `estadoExemploC3` is Executado,
and `descartar` still succeeds, moving it to Descartado — a transition
the claim says never happens. -/
theorem claim_C3_counterexample :
    (estadoExemploC3.grupos "g2").map Grupo.status = some statusExecutado ∧
    (match descartar estadoExemploC3 "g2" none none with
     | .ok s2 => (s2.grupos "g2").map Grupo.status
     | .error _ => none) = some statusDescartado ∧
    statusExecutado ≠ statusPendente := by
  refine ⟨rfl, by decide, by decide⟩

/-- C3 amended: the transitions the three operations perform are exactly
`Pendente → Executado` and `Revertido → Executado` (unificar),
`Executado → Revertido` — or no change at all when there is nothing to
revert — (reverter), and `any status → Descartado` (descartar, which
checks only existence); no operation touches any other group's row. -/
theorem claim_C3_amended (s : Estado) (gid cid : String)
    (nf ep dc : Option String) :
    (∀ s2 n, unificar s gid cid nf ep dc = Except.ok (s2, n) →
      ∃ g, s.grupos gid = some g ∧
        (g.status = statusPendente ∨ g.status = statusRevertido) ∧
        ∃ g2, s2.grupos gid = some g2 ∧ g2.status = statusExecutado ∧
          ∀ outro, outro ≠ gid → s2.grupos outro = s.grupos outro) ∧
    (∀ s2 n, reverter s gid ep = Except.ok (s2, n) →
      ∃ g, s.grupos gid = some g ∧ g.status = statusExecutado ∧
        ((s2 = s ∧ n = 0) ∨
          ∃ g2, s2.grupos gid = some g2 ∧ g2.status = statusRevertido) ∧
        ∀ outro, outro ≠ gid → s2.grupos outro = s.grupos outro) ∧
    (∀ s2, descartar s gid ep dc = Except.ok s2 →
      ∃ g, s.grupos gid = some g ∧
        ∃ g2, s2.grupos gid = some g2 ∧ g2.status = statusDescartado ∧
          ∀ outro, outro ≠ gid → s2.grupos outro = s.grupos outro) := by
  refine ⟨?_, ?_, ?_⟩
  · intro s2 n hout
    unfold unificar at hout
    split at hout
    · exact absurd hout (by simp)
    next g hg =>
      split at hout
      · exact absurd hout (by simp)
      next hst =>
        split at hout
        · exact absurd hout (by simp)
        next tab htab =>
          simp only [Except.ok.injEq, Prod.mk.injEq] at hout
          obtain ⟨hs2, -⟩ := hout
          refine ⟨g, hg, by tauto, ?_⟩
          cases hq : s2.grupos gid with
          | none => rw [← hs2] at hq; simp at hq
          | some g2 =>
            have hq2 := hq
            rw [← hs2] at hq2
            simp only [eq_self_iff_true, if_true, Option.some.injEq] at hq2
            refine ⟨g2, rfl, ?_, ?_⟩
            · rw [← hq2]
            · intro outro ho
              rw [← hs2]
              simp [ho]
  · intro s2 n hout
    unfold reverter at hout
    split at hout
    · exact absurd hout (by simp)
    next g hg =>
      split at hout
      · exact absurd hout (by simp)
      next hst =>
        push_neg at hst
        split at hout
        · exact absurd hout (by simp)
        next tab htab =>
          dsimp only at hout
          split at hout
          · simp only [Except.ok.injEq, Prod.mk.injEq] at hout
            obtain ⟨hs2, hn⟩ := hout
            exact ⟨g, hg, hst, Or.inl ⟨hs2.symm, hn.symm⟩,
              fun outro ho => by rw [← hs2]⟩
          · simp only [Except.ok.injEq, Prod.mk.injEq] at hout
            obtain ⟨hs2, -⟩ := hout
            refine ⟨g, hg, hst, Or.inr ?_, ?_⟩
            · cases hq : s2.grupos gid with
              | none => rw [← hs2] at hq; simp at hq
              | some g2 =>
                have hq2 := hq
                rw [← hs2] at hq2
                simp only [eq_self_iff_true, if_true, Option.some.injEq] at hq2
                exact ⟨g2, rfl, by rw [← hq2]⟩
            · intro outro ho
              rw [← hs2]
              simp [ho]
  · intro s2 hout
    unfold descartar at hout
    split at hout
    · exact absurd hout (by simp)
    next g hg =>
      simp only [Except.ok.injEq] at hout
      refine ⟨g, hg, ?_⟩
      cases hq : s2.grupos gid with
      | none => rw [← hout] at hq; simp at hq
      | some g2 =>
        have hq2 := hq
        rw [← hout] at hq2
        simp only [eq_self_iff_true, if_true, Option.some.injEq] at hq2
        refine ⟨g2, rfl, by rw [← hq2], ?_⟩
        intro outro ho
        rw [← hout]
        simp [ho]

/-! ## C1 — merge–revert round trip -/

/-- C1 counterexample: in `estadoExemploC1` the Pending group
`g3 = {A, B}` has an absorbed member `B` with no referencing row.  After
`unificar(g3, A)` no log rows exist, so `reverter(g3)` is a no-op: the
group stays Executado (never reaching Revertido) and `B` keeps
`excluido = true` — the round trip restores neither the status sequence
nor the soft-delete flag. -/
theorem claim_C1_counterexample :
    (match unificar estadoExemploC1 "g3" "A" none none none with
     | .ok (s1, _) =>
       match reverter s1 "g3" none with
       | .ok (s2, n) =>
         some ((s2.grupos "g3").map Grupo.status,
               s2.banco.excluido "bairro" "B", n)
       | .error _ => none
     | .error _ => none) = some (some statusExecutado, true, 0) ∧
    statusExecutado ≠ statusRevertido := by
  exact ⟨by decide, by decide⟩

/-- Selecting a value untouched by a redirection reads the same pks. -/
theorem selecionarPks_redirecionar (linhas : List (String × String))
    (de para v : String) (hv1 : v ≠ de) (hv2 : v ≠ para) :
    selecionarPks (redirecionarLinhas linhas de para) v = selecionarPks linhas v := by
  unfold selecionarPks redirecionarLinhas
  rw [List.filter_map, List.map_map]
  have hfilter : List.filter
      ((fun r => decide (r.2 = v)) ∘ (fun r : String × String =>
        if r.2 = de then (r.1, para) else r)) linhas =
      List.filter (fun r => decide (r.2 = v)) linhas := by
    apply List.filter_congr
    intro r _
    by_cases hr : r.2 = de
    · simp only [Function.comp_apply, if_pos hr]
      exact decide_eq_decide.mpr
        (iff_of_false (fun h => hv2 h.symm) (fun h => hv1 (hr ▸ h.symm)))
    · simp only [Function.comp_apply, if_neg hr]
  rw [hfilter]
  apply List.map_congr_left
  intro r _
  by_cases hr : r.2 = de
  · simp [hr]
  · simp [hr]

/-- A redirection with no matching row is the identity. -/
theorem redirecionar_vazio (linhas : List (String × String)) (de para : String)
    (h : selecionarPks linhas de = []) : redirecionarLinhas linhas de para = linhas := by
  induction linhas with
  | nil => rfl
  | cons r resto ih =>
    obtain ⟨p, w⟩ := r
    simp only [selecionarPks, List.filter_cons] at h
    by_cases hw : w = de
    · exfalso
      rw [if_pos (by simp [hw])] at h
      simp at h
    · rw [if_neg (by simp [hw])] at h
      simp only [redirecionarLinhas, List.map_cons, if_neg hw]
      have hresto := ih h
      simp only [redirecionarLinhas] at hresto
      rw [hresto]

/-- Redirecting one more member folds into `redirigirTudo`. -/
theorem redirigirTudo_cons (ms : List String) (m canonico : String)
    (linhas : List (String × String)) (hc : canonico ∉ ms) :
    redirigirTudo ms canonico (redirecionarLinhas linhas m canonico) =
      redirigirTudo (m :: ms) canonico linhas := by
  simp only [redirigirTudo, redirecionarLinhas, List.map_map]
  refine List.map_congr_left ?_
  intro r _
  obtain ⟨p, w⟩ := r
  by_cases hw : w = m
  · subst hw
    simp [hc]
  · simp only [Function.comp_apply, if_neg hw]
    by_cases hw2 : w ∈ ms
    · simp [hw2]
    · simp [hw2, hw, List.mem_cons]

/-- A pk belongs to the selection exactly when the row is present. -/
theorem selecionarPks_mem (linhas : List (String × String)) (v pk : String) :
    pk ∈ selecionarPks linhas v ↔ (pk, v) ∈ linhas := by
  simp only [selecionarPks, List.mem_map, List.mem_filter, decide_eq_true_eq]
  constructor
  · rintro ⟨⟨p, w⟩, ⟨hmem, hv⟩, hp⟩
    simp only at hv hp
    subst hv; subst hp
    exact hmem
  · intro h
    exact ⟨(pk, v), ⟨h, rfl⟩, rfl⟩

/-- Effect of one `passoFk` on the FK row lists. -/
theorem passoFk_fkLinhas (gid c m : String) (st : EstadoMerge) (fk : FkRef)
    (T C : String) :
    (passoFk gid c m st fk).banco.fkLinhas T C =
      if T = fk.tabela ∧ C = fk.coluna then
        redirecionarLinhas (st.banco.fkLinhas fk.tabela fk.coluna) m c
      else st.banco.fkLinhas T C := by
  simp only [passoFk]
  by_cases hvazio : (selecionarPks (st.banco.fkLinhas fk.tabela fk.coluna) m).isEmpty
  · rw [if_pos hvazio]
    by_cases hTC : T = fk.tabela ∧ C = fk.coluna
    · rw [if_pos hTC,
        redirecionar_vazio _ _ _ (List.isEmpty_iff.mp hvazio)]
      obtain ⟨hT, hC⟩ := hTC
      rw [hT, hC]
    · rw [if_neg hTC]
  · rw [if_neg hvazio]
    simp only [definirFkLinhas]

/-- `passoFk` leaves the soft-delete flags untouched. -/
theorem passoFk_excluido (gid c m : String) (st : EstadoMerge) (fk : FkRef) :
    (passoFk gid c m st fk).banco.excluido = st.banco.excluido := by
  simp only [passoFk]
  split
  · rfl
  · simp only [definirFkLinhas]

/-- `passoFk` leaves the `nome` columns untouched. -/
theorem passoFk_nome (gid c m : String) (st : EstadoMerge) (fk : FkRef) :
    (passoFk gid c m st fk).banco.nome = st.banco.nome := by
  simp only [passoFk]
  split
  · rfl
  · simp only [definirFkLinhas]

/-- Log rows appended by one `passoFk`. -/
theorem passoFk_logs (gid c m : String) (st : EstadoMerge) (fk : FkRef) :
    (passoFk gid c m st fk).logs =
      st.logs ++ (selecionarPks (st.banco.fkLinhas fk.tabela fk.coluna) m).map
        (mkLogUnificar gid c m fk) := by
  simp only [passoFk]
  split
  next h => rw [List.isEmpty_iff.mp h]; simp
  next h => rfl

/-- Counter increment of one `passoFk`. -/
theorem passoFk_total (gid c m : String) (st : EstadoMerge) (fk : FkRef) :
    (passoFk gid c m st fk).total =
      st.total + (selecionarPks (st.banco.fkLinhas fk.tabela fk.coluna) m).length := by
  simp only [passoFk]
  split
  next h => rw [List.isEmpty_iff.mp h]; simp
  next h => rfl

/-- Pointwise-equal functions give equal flat maps. -/
theorem flatMapCongr {α β : Type} {l : List α} {f g : α → List β}
    (h : ∀ x ∈ l, f x = g x) : l.flatMap f = l.flatMap g := by
  induction l with
  | nil => rfl
  | cons a l ih =>
    simp only [List.flatMap_cons]
    rw [h a (List.mem_cons_self _ _), ih (fun x hx => h x (List.mem_cons_of_mem _ hx))]

/-- Combined effect of the FK loop of one eliminated member: every
mapped FK row list is redirected once (reading the pre-loop rows, since
the map's table/column pairs are distinct), nothing else changes, and
one batch of log rows per FK is appended. -/
theorem foldFks_spec (gid c m : String) :
    ∀ (fks : List FkRef) (st : EstadoMerge),
      (fks.map (fun fk => (fk.tabela, fk.coluna))).Nodup →
      (∀ fk ∈ fks, (fks.foldl (passoFk gid c m) st).banco.fkLinhas fk.tabela fk.coluna =
        redirecionarLinhas (st.banco.fkLinhas fk.tabela fk.coluna) m c) ∧
      (∀ T C, (∀ fk ∈ fks, ¬(fk.tabela = T ∧ fk.coluna = C)) →
        (fks.foldl (passoFk gid c m) st).banco.fkLinhas T C = st.banco.fkLinhas T C) ∧
      (fks.foldl (passoFk gid c m) st).banco.excluido = st.banco.excluido ∧
      (fks.foldl (passoFk gid c m) st).banco.nome = st.banco.nome ∧
      (fks.foldl (passoFk gid c m) st).logs = st.logs ++ fks.flatMap (fun fk =>
        (selecionarPks (st.banco.fkLinhas fk.tabela fk.coluna) m).map
          (mkLogUnificar gid c m fk)) ∧
      (fks.foldl (passoFk gid c m) st).total = st.total + (fks.flatMap (fun fk =>
        (selecionarPks (st.banco.fkLinhas fk.tabela fk.coluna) m).map
          (mkLogUnificar gid c m fk))).length := by
  intro fks
  induction fks with
  | nil => intro st _; simp
  | cons fk0 rest ih =>
    intro st hnodup
    simp only [List.map_cons, List.nodup_cons, List.mem_map] at hnodup
    obtain ⟨hfora, hnodupRest⟩ := hnodup
    have hdiff : ∀ fk ∈ rest, ¬(fk.tabela = fk0.tabela ∧ fk.coluna = fk0.coluna) := by
      intro fk hfk hpar
      exact hfora ⟨fk, hfk, by rw [hpar.1, hpar.2]⟩
    obtain ⟨ihA, ihB, ihExc, ihNome, ihLogs, ihTotal⟩ :=
      ih (passoFk gid c m st fk0) hnodupRest
    have hrowsRest : ∀ fk ∈ rest,
        (passoFk gid c m st fk0).banco.fkLinhas fk.tabela fk.coluna =
          st.banco.fkLinhas fk.tabela fk.coluna := by
      intro fk hfk
      rw [passoFk_fkLinhas, if_neg (hdiff fk hfk)]
    simp only [List.foldl_cons]
    refine ⟨?_, ?_, ?_, ?_, ?_, ?_⟩
    · intro fk hfk
      rcases List.mem_cons.mp hfk with hfk | hfk
      · subst hfk
        rw [ihB fk.tabela fk.coluna ?_, passoFk_fkLinhas, if_pos ⟨rfl, rfl⟩]
        intro fk2 hfk2 hpar
        exact hdiff fk2 hfk2 hpar
      · rw [ihA fk hfk, hrowsRest fk hfk]
    · intro T C hT
      rw [ihB T C (fun fk hfk => hT fk (List.mem_cons_of_mem _ hfk)),
        passoFk_fkLinhas, if_neg ?_]
      intro hpar
      exact hT fk0 (List.mem_cons_self _ _) ⟨hpar.1.symm, hpar.2.symm⟩
    · rw [ihExc, passoFk_excluido]
    · rw [ihNome, passoFk_nome]
    · rw [ihLogs, passoFk_logs]
      have hcong : rest.flatMap (fun fk =>
          (selecionarPks ((passoFk gid c m st fk0).banco.fkLinhas fk.tabela fk.coluna) m).map
            (mkLogUnificar gid c m fk)) = rest.flatMap (fun fk =>
          (selecionarPks (st.banco.fkLinhas fk.tabela fk.coluna) m).map
            (mkLogUnificar gid c m fk)) := by
        refine flatMapCongr ?_
        intro fk hfk
        rw [hrowsRest fk hfk]
      rw [hcong]
      simp only [List.flatMap_cons, List.append_assoc]
    · rw [ihTotal, passoFk_total]
      have hcong : rest.flatMap (fun fk =>
          (selecionarPks ((passoFk gid c m st fk0).banco.fkLinhas fk.tabela fk.coluna) m).map
            (mkLogUnificar gid c m fk)) = rest.flatMap (fun fk =>
          (selecionarPks (st.banco.fkLinhas fk.tabela fk.coluna) m).map
            (mkLogUnificar gid c m fk)) := by
        refine flatMapCongr ?_
        intro fk hfk
        rw [hrowsRest fk hfk]
      rw [hcong]
      simp only [List.flatMap_cons, List.length_append, List.length_map]
      omega

/-- Combined effect of `passoMembro` for one eliminated member: the
mapped FK row lists are redirected, the member's soft-delete flag is
set, and the member's log batch is appended. -/
theorem passoMembro_spec (gid c tab : String) (fks : List FkRef)
    (hnodup : (fks.map (fun fk => (fk.tabela, fk.coluna))).Nodup)
    (st : EstadoMerge) (m : String) :
    (∀ fk ∈ fks, (passoMembro gid c fks tab st m).banco.fkLinhas fk.tabela fk.coluna =
      redirecionarLinhas (st.banco.fkLinhas fk.tabela fk.coluna) m c) ∧
    (∀ T C, (∀ fk ∈ fks, ¬(fk.tabela = T ∧ fk.coluna = C)) →
      (passoMembro gid c fks tab st m).banco.fkLinhas T C = st.banco.fkLinhas T C) ∧
    (∀ t i, (passoMembro gid c fks tab st m).banco.excluido t i =
      if t = tab ∧ i = m then true else st.banco.excluido t i) ∧
    (passoMembro gid c fks tab st m).banco.nome = st.banco.nome ∧
    (passoMembro gid c fks tab st m).logs = st.logs ++ fks.flatMap (fun fk =>
      (selecionarPks (st.banco.fkLinhas fk.tabela fk.coluna) m).map
        (mkLogUnificar gid c m fk)) ∧
    (passoMembro gid c fks tab st m).total = st.total + (fks.flatMap (fun fk =>
      (selecionarPks (st.banco.fkLinhas fk.tabela fk.coluna) m).map
        (mkLogUnificar gid c m fk))).length := by
  obtain ⟨hA, hB, hExc, hNome, hLogs, hTotal⟩ := foldFks_spec gid c m fks st hnodup
  simp only [passoMembro, definirExcluido]
  refine ⟨?_, ?_, ?_, ?_, ?_, ?_⟩
  · intro fk hfk
    exact hA fk hfk
  · intro T C hT
    exact hB T C hT
  · intro t i
    rw [hExc]
  · exact hNome
  · exact hLogs
  · exact hTotal

/-- Combined effect of the member loop of `unificar`: the mapped FK row
lists end up fully redirected (`redirigirTudo`), the eliminated members
are soft-deleted, `nome` columns and other row lists are untouched, and
the appended log rows are `logsDeMerge` over the pre-loop host state. -/
theorem mergeFold_spec (gid c tab : String) (fks : List FkRef)
    (hnodup : (fks.map (fun fk => (fk.tabela, fk.coluna))).Nodup) :
    ∀ (ms : List String) (st : EstadoMerge), c ∉ ms → ms.Nodup →
      (∀ fk ∈ fks, (ms.foldl (passoMembro gid c fks tab) st).banco.fkLinhas fk.tabela fk.coluna =
        redirigirTudo ms c (st.banco.fkLinhas fk.tabela fk.coluna)) ∧
      (∀ T C, (∀ fk ∈ fks, ¬(fk.tabela = T ∧ fk.coluna = C)) →
        (ms.foldl (passoMembro gid c fks tab) st).banco.fkLinhas T C =
          st.banco.fkLinhas T C) ∧
      (∀ t i, (ms.foldl (passoMembro gid c fks tab) st).banco.excluido t i =
        if t = tab ∧ i ∈ ms then true else st.banco.excluido t i) ∧
      (ms.foldl (passoMembro gid c fks tab) st).banco.nome = st.banco.nome ∧
      (ms.foldl (passoMembro gid c fks tab) st).logs =
        st.logs ++ logsDeMerge gid c fks st.banco ms ∧
      (ms.foldl (passoMembro gid c fks tab) st).total =
        st.total + (logsDeMerge gid c fks st.banco ms).length := by
  intro ms
  induction ms with
  | nil =>
    intro st _ _
    simp [logsDeMerge, redirigirTudo]
  | cons m ms ih =>
    intro st hc hnd
    rw [List.mem_cons, not_or] at hc
    obtain ⟨hcm, hcms⟩ := hc
    rw [List.nodup_cons] at hnd
    obtain ⟨hmms, hndms⟩ := hnd
    obtain ⟨pA, pB, pExc, pNome, pLogs, pTotal⟩ := passoMembro_spec gid c tab fks hnodup st m
    obtain ⟨ihA, ihB, ihExc, ihNome, ihLogs, ihTotal⟩ :=
      ih (passoMembro gid c fks tab st m) hcms hndms
    have hbanco : logsDeMerge gid c fks (passoMembro gid c fks tab st m).banco ms =
        logsDeMerge gid c fks st.banco ms := by
      unfold logsDeMerge
      refine flatMapCongr ?_
      intro m2 hm2
      refine flatMapCongr ?_
      intro fk hfk
      have h1 : m2 ≠ m := by intro h; subst h; exact hmms hm2
      have h2 : m2 ≠ c := by intro h; subst h; exact hcms hm2
      rw [pA fk hfk, selecionarPks_redirecionar _ _ _ _ h1 h2]
    simp only [List.foldl_cons]
    refine ⟨?_, ?_, ?_, ?_, ?_, ?_⟩
    · intro fk hfk
      rw [ihA fk hfk, pA fk hfk, redirigirTudo_cons _ _ _ _ hcms]
    · intro T C hT
      rw [ihB T C hT, pB T C hT]
    · intro t i
      rw [ihExc t i]
      by_cases hin : t = tab ∧ i ∈ ms
      · rw [if_pos hin, if_pos ⟨hin.1, List.mem_cons_of_mem _ hin.2⟩]
      · rw [if_neg hin, pExc t i]
        by_cases him : t = tab ∧ i = m
        · rw [if_pos him, if_pos ⟨him.1, him.2 ▸ List.mem_cons_self _ _⟩]
        · rw [if_neg him, if_neg ?_]
          rintro ⟨ht, hi⟩
          rcases List.mem_cons.mp hi with hi | hi
          · exact him ⟨ht, hi⟩
          · exact hin ⟨ht, hi⟩
    · rw [ihNome, pNome]
    · rw [ihLogs, pLogs, hbanco]
      simp only [logsDeMerge, List.flatMap_cons, List.append_assoc]
    · rw [ihTotal, pTotal, hbanco]
      simp only [logsDeMerge, List.flatMap_cons, List.length_append]
      omega

/-- The FK map's `(tabela, coluna)` pairs are distinct for every
entity code. -/
theorem fkMap_nodup (t : Nat) :
    ((fkMap t).map (fun fk => (fk.tabela, fk.coluna))).Nodup := by
  rcases t with _ | _ | _ | _ | _ | n
  · decide
  · decide
  · decide
  · decide
  · decide
  · simp [fkMap]

/-- No FK column of the map is the `nome` column. -/
theorem fkMap_coluna (t : Nat) :
    ∀ fk ∈ fkMap t, fk.coluna ≠ "nome" := by
  rcases t with _ | _ | _ | _ | _ | n
  · decide
  · decide
  · decide
  · decide
  · decide
  · simp [fkMap]

/-- `reverterLog` acts on one `(T, C)` row list as `efeitoLog` mapped
over it (the identity when the log concerns another table/column). -/
theorem reverterLog_fkLinhas (b : BancoHost) (log : MergeLog) (T C : String) :
    (reverterLog b log).fkLinhas T C = (b.fkLinhas T C).map (efeitoLog T C log) := by
  simp only [reverterLog, definirFkLinhas]
  by_cases h : T = log.tabela_afetada ∧ C = log.coluna_alterada
  · obtain ⟨hT, hC⟩ := h
    subst hT; subst hC
    rw [if_pos (And.intro (Eq.refl log.tabela_afetada) (Eq.refl log.coluna_alterada))]
    refine List.map_congr_left ?_
    intro r _
    simp only [efeitoLog]
    by_cases hr : r.1 = log.registro_afetado_id
    · simp [hr]
    · simp [hr]
  · rw [if_neg h]
    have hid : ∀ r ∈ b.fkLinhas T C, efeitoLog T C log r = id r := by
      intro r _
      simp only [efeitoLog, id]
      rw [if_neg ?_]
      intro hc
      exact h ⟨hc.1.symm, hc.2.1.symm⟩
    rw [List.map_congr_left hid, List.map_id]

/-- `reverterLog` leaves the soft-delete flags untouched. -/
theorem reverterLog_excluido (b : BancoHost) (log : MergeLog) :
    (reverterLog b log).excluido = b.excluido := rfl

/-- `reverterLog` leaves the `nome` columns untouched. -/
theorem reverterLog_nome (b : BancoHost) (log : MergeLog) :
    (reverterLog b log).nome = b.nome := rfl

/-- Row lists after folding `reverterLog` over a log list. -/
theorem foldl_reverterLog_fkLinhas :
    ∀ (logs : List MergeLog) (b : BancoHost) (T C : String),
      (logs.foldl reverterLog b).fkLinhas T C =
        logs.foldl (fun rs log => rs.map (efeitoLog T C log)) (b.fkLinhas T C) := by
  intro logs
  induction logs with
  | nil => intro b T C; rfl
  | cons log0 rest ih =>
    intro b T C
    simp only [List.foldl_cons]
    rw [ih (reverterLog b log0) T C, reverterLog_fkLinhas]

/-- Soft-delete flags after folding `reverterLog` over a log list. -/
theorem foldl_reverterLog_excluido :
    ∀ (logs : List MergeLog) (b : BancoHost),
      (logs.foldl reverterLog b).excluido = b.excluido := by
  intro logs
  induction logs with
  | nil => intro b; rfl
  | cons log0 rest ih =>
    intro b
    simp only [List.foldl_cons]
    rw [ih (reverterLog b log0), reverterLog_excluido]

/-- `nome` columns after folding `reverterLog` over a log list. -/
theorem foldl_reverterLog_nome :
    ∀ (logs : List MergeLog) (b : BancoHost),
      (logs.foldl reverterLog b).nome = b.nome := by
  intro logs
  induction logs with
  | nil => intro b; rfl
  | cons log0 rest ih =>
    intro b
    simp only [List.foldl_cons]
    rw [ih (reverterLog b log0), reverterLog_nome]

/-- Folding list-map steps equals mapping the per-row fold. -/
theorem foldl_map_efeito (T C : String) :
    ∀ (logs : List MergeLog) (rows : List (String × String)),
      logs.foldl (fun rs log => rs.map (efeitoLog T C log)) rows =
        rows.map (fun r => logs.foldl (fun r2 log => efeitoLog T C log r2) r) := by
  intro logs
  induction logs with
  | nil => intro rows; simp
  | cons log0 rest ih =>
    intro rows
    simp only [List.foldl_cons]
    rw [ih (rows.map (efeitoLog T C log0)), List.map_map]
    rfl

/-- Per-row outcome of folding `efeitoLog` over a log list: if every log
row that hits pk `p` recorded the same previous value `v`, the fold ends
at `(p, v)` as soon as one log hits, and leaves the row alone when none
does. -/
theorem efeito_fold_resultado (T C v p : String) :
    ∀ (logs : List MergeLog) (w : String),
      (∀ log ∈ logs, (log.tabela_afetada = T ∧ log.coluna_alterada = C ∧
        p = log.registro_afetado_id) → log.valor_anterior = v) →
      ((∃ log ∈ logs, log.tabela_afetada = T ∧ log.coluna_alterada = C ∧
        p = log.registro_afetado_id) →
        logs.foldl (fun r2 log => efeitoLog T C log r2) (p, w) = (p, v)) ∧
      ((∀ log ∈ logs, ¬(log.tabela_afetada = T ∧ log.coluna_alterada = C ∧
        p = log.registro_afetado_id)) →
        logs.foldl (fun r2 log => efeitoLog T C log r2) (p, w) = (p, w)) := by
  intro logs
  induction logs with
  | nil =>
    intro w _
    exact ⟨fun h => absurd h (by simp), fun _ => rfl⟩
  | cons log0 rest ih =>
    intro w hall
    have hall2 : ∀ log ∈ rest, (log.tabela_afetada = T ∧ log.coluna_alterada = C ∧
        p = log.registro_afetado_id) → log.valor_anterior = v :=
      fun log hl => hall log (List.mem_cons_of_mem _ hl)
    by_cases h0 : log0.tabela_afetada = T ∧ log0.coluna_alterada = C ∧
        p = log0.registro_afetado_id
    · have hv0 : log0.valor_anterior = v := hall log0 (List.mem_cons_self _ _) h0
      have he : efeitoLog T C log0 (p, w) = (p, v) := by
        simp only [efeitoLog]
        rw [if_pos ⟨h0.1, h0.2.1, h0.2.2⟩, hv0]
      obtain ⟨ihEx, ihNo⟩ := ih v hall2
      constructor
      · intro _
        simp only [List.foldl_cons, he]
        by_cases hex : ∃ log ∈ rest, log.tabela_afetada = T ∧ log.coluna_alterada = C ∧
            p = log.registro_afetado_id
        · exact ihEx hex
        · exact ihNo (fun log hl hm => hex ⟨log, hl, hm⟩)
      · intro hno
        exact absurd h0 (hno log0 (List.mem_cons_self _ _))
    · have he : efeitoLog T C log0 (p, w) = (p, w) := by
        simp only [efeitoLog]
        rw [if_neg (fun hc => h0 ⟨hc.1, hc.2.1, hc.2.2⟩)]
      obtain ⟨ihEx, ihNo⟩ := ih w hall2
      constructor
      · rintro ⟨log, hl, hm⟩
        simp only [List.foldl_cons, he]
        rcases List.mem_cons.mp hl with rfl | h
        · exact absurd hm h0
        · exact ihEx ⟨log, h, hm⟩
      · intro hno
        simp only [List.foldl_cons, he]
        exact ihNo (fun log hl => hno log (List.mem_cons_of_mem _ hl))

/-- A pk with distinct pk values pins down the FK value of its row. -/
theorem nodup_fst_unico {l : List (String × String)}
    (h : (l.map Prod.fst).Nodup) {p a b : String}
    (ha : (p, a) ∈ l) (hb : (p, b) ∈ l) : a = b := by
  have heq : (p, a) = (p, b) := List.inj_on_of_nodup_map h ha hb rfl
  exact congrArg Prod.snd heq

/-- Membership in `logsDeMerge`. -/
theorem logsDeMerge_mem (gid c : String) (fks : List FkRef) (b : BancoHost)
    (ms : List String) (log : MergeLog) :
    log ∈ logsDeMerge gid c fks b ms ↔
      ∃ m ∈ ms, ∃ fk ∈ fks, ∃ pk, (pk, m) ∈ b.fkLinhas fk.tabela fk.coluna ∧
        log = mkLogUnificar gid c m fk pk := by
  simp only [logsDeMerge, List.mem_flatMap, List.mem_map, selecionarPks_mem]
  constructor
  · rintro ⟨m, hm, fk, hfk, pk, hpk, hlog⟩
    exact ⟨m, hm, fk, hfk, pk, hpk, hlog.symm⟩
  · rintro ⟨m, hm, fk, hfk, pk, hpk, hlog⟩
    exact ⟨m, hm, fk, hfk, pk, hpk, hlog.symm⟩

/-- `[...new Set(xs)]` keeps exactly the members of `xs`. -/
theorem mem_dedup : ∀ (l : List String) (x : String),
    x ∈ dedupPrimeiraOcorrencia l ↔ x ∈ l := by
  intro l
  induction l using dedupPrimeiraOcorrencia.induct with
  | case1 =>
    intro x
    simp [dedupPrimeiraOcorrencia]
  | case2 y ys ih =>
    intro x
    rw [dedupPrimeiraOcorrencia]
    simp only [List.mem_cons, ih, List.mem_filter, decide_eq_true_eq]
    constructor
    · rintro (h | ⟨h, -⟩)
      · exact Or.inl h
      · exact Or.inr h
    · rintro (h | h)
      · exact Or.inl h
      · by_cases hxy : x = y
        · exact Or.inl hxy
        · exact Or.inr ⟨h, hxy⟩

/-- Soft-delete flags after the `excluido := false` loop of `reverter`. -/
theorem foldl_definirExcluido_excluido (tab : String) :
    ∀ (xs : List String) (b : BancoHost) (t i : String),
      (xs.foldl (fun b m => definirExcluido b tab m false) b).excluido t i =
        if t = tab ∧ i ∈ xs then false else b.excluido t i := by
  intro xs
  induction xs with
  | nil => intro b t i; simp
  | cons x xs ih =>
    intro b t i
    simp only [List.foldl_cons]
    rw [ih]
    by_cases h1 : t = tab ∧ i ∈ xs
    · rw [if_pos h1, if_pos ⟨h1.1, List.mem_cons_of_mem _ h1.2⟩]
    · rw [if_neg h1]
      simp only [definirExcluido]
      by_cases h2 : t = tab ∧ i = x
      · rw [if_pos h2, if_pos ⟨h2.1, h2.2 ▸ List.mem_cons_self _ _⟩]
      · rw [if_neg h2, if_neg ?_]
        rintro ⟨ht, hi⟩
        rcases List.mem_cons.mp hi with hi | hi
        · exact h2 ⟨ht, hi⟩
        · exact h1 ⟨ht, hi⟩

/-- The `excluido := false` loop leaves row lists untouched. -/
theorem foldl_definirExcluido_fkLinhas (tab : String) :
    ∀ (xs : List String) (b : BancoHost),
      (xs.foldl (fun b m => definirExcluido b tab m false) b).fkLinhas = b.fkLinhas := by
  intro xs
  induction xs with
  | nil => intro b; rfl
  | cons x xs ih =>
    intro b
    simp only [List.foldl_cons]
    rw [ih]
    rfl

/-- The `excluido := false` loop leaves `nome` columns untouched. -/
theorem foldl_definirExcluido_nome (tab : String) :
    ∀ (xs : List String) (b : BancoHost),
      (xs.foldl (fun b m => definirExcluido b tab m false) b).nome = b.nome := by
  intro xs
  induction xs with
  | nil => intro b; rfl
  | cons x xs ih =>
    intro b
    simp only [List.foldl_cons]
    rw [ih]
    rfl

/-- Forward computation of `unificar` when all validations pass. -/
theorem unificar_spec (s : Estado) (gid c tab : String) (g : Grupo)
    (nomeFinal executadoPor decisaoContexto : Option String)
    (hg : s.grupos gid = some g)
    (hst : g.status = statusPendente)
    (htab : tabelaEntidade g.tipo_entidade = some tab) :
    unificar s gid c nomeFinal executadoPor decisaoContexto = Except.ok
      ({ grupos := fun id => if id = gid then
            some { g with
              status := statusExecutado,
              registro_canonico_id := some c,
              nome_canonico := nomeFinal.elim g.nome_canonico some,
              executado_por := executadoPor.elim g.executado_por some,
              total_registros_afetados :=
                some ((g.registro_ids.filter (fun id => id ≠ c)).foldl
                  (passoMembro gid c (fkMap g.tipo_entidade) tab)
                  ⟨s.banco, s.logs, 0⟩).total,
              decisao_contexto := decisaoContexto.elim g.decisao_contexto some }
          else s.grupos id,
         logs := ((g.registro_ids.filter (fun id => id ≠ c)).foldl
           (passoMembro gid c (fkMap g.tipo_entidade) tab) ⟨s.banco, s.logs, 0⟩).logs,
         banco :=
           match nomeFinal with
           | some nm => definirNome
               ((g.registro_ids.filter (fun id => id ≠ c)).foldl
                 (passoMembro gid c (fkMap g.tipo_entidade) tab)
                 ⟨s.banco, s.logs, 0⟩).banco tab c nm
           | none => ((g.registro_ids.filter (fun id => id ≠ c)).foldl
               (passoMembro gid c (fkMap g.tipo_entidade) tab)
               ⟨s.banco, s.logs, 0⟩).banco },
       ((g.registro_ids.filter (fun id => id ≠ c)).foldl
         (passoMembro gid c (fkMap g.tipo_entidade) tab) ⟨s.banco, s.logs, 0⟩).total) := by
  unfold unificar
  split
  next heq => rw [hg] at heq; exact Option.noConfusion heq
  next grupo heq =>
    rw [hg] at heq
    injection heq with heq2
    subst heq2
    rw [if_neg (fun hcontr => hcontr.1 hst)]
    split
    next heq3 => rw [htab] at heq3; exact Option.noConfusion heq3
    next tab2 heq3 =>
      rw [htab] at heq3
      injection heq3 with heq4
      subst heq4
      rfl

/-- Forward computation of `reverter` on an Executado group with at
least one unreverted log row. -/
theorem reverter_spec (s1 : Estado) (gid tab : String) (g1 : Grupo)
    (executadoPor2 : Option String)
    (hg1 : s1.grupos gid = some g1)
    (hst1 : g1.status = statusExecutado)
    (htab1 : tabelaEntidade g1.tipo_entidade = some tab)
    (hne : s1.logs.filter (fun l => l.grupo_id = gid ∧ l.revertido = false) ≠ []) :
    reverter s1 gid executadoPor2 = Except.ok
      ({ grupos := fun id => if id = gid then
            some { g1 with status := statusRevertido } else s1.grupos id,
         logs := s1.logs.map (fun l =>
           if l.grupo_id = gid ∧ l.revertido = false then { l with revertido := true }
           else l),
         banco := (dedupPrimeiraOcorrencia
             ((s1.logs.filter (fun l => l.grupo_id = gid ∧ l.revertido = false)).map
               (fun l => l.registro_eliminado_id))).foldl
           (fun b m => definirExcluido b tab m false)
           ((s1.logs.filter (fun l => l.grupo_id = gid ∧ l.revertido = false)).foldl
             reverterLog s1.banco) },
       (s1.logs.filter (fun l => l.grupo_id = gid ∧ l.revertido = false)).length) := by
  unfold reverter
  split
  next heq => rw [hg1] at heq; exact Option.noConfusion heq
  next grupo heq =>
    rw [hg1] at heq
    injection heq with heq2
    subst heq2
    rw [if_neg (fun hcontr => hcontr hst1)]
    split
    next heq3 => rw [htab1] at heq3; exact Option.noConfusion heq3
    next tab2 heq3 =>
      rw [htab1] at heq3
      injection heq3 with heq4
      subst heq4
      dsimp only
      have hni : ¬(s1.logs.filter
          (fun l => l.grupo_id = gid ∧ l.revertido = false)).isEmpty = true :=
        fun hempty => hne (List.isEmpty_iff.mp hempty)
      rw [if_neg hni]

/-- Abstract interface of a successful `unificar`: the group is moved
to Executado, the mapped FK row lists are redirected, the eliminated
members are soft-deleted, the log rows of the merge are appended, and
the optional rename touches exactly the canonical row's `nome`. -/
theorem unificar_caracterizacao (s : Estado) (gid c tab : String) (g : Grupo)
    (nomeFinal executadoPor decisaoContexto : Option String)
    (hg : s.grupos gid = some g)
    (hst : g.status = statusPendente)
    (htab : tabelaEntidade g.tipo_entidade = some tab)
    (hndids : g.registro_ids.Nodup) :
    ∃ s1 total,
      unificar s gid c nomeFinal executadoPor decisaoContexto = Except.ok (s1, total) ∧
      (∃ g1, s1.grupos gid = some g1 ∧ g1.status = statusExecutado ∧
        g1.tipo_entidade = g.tipo_entidade) ∧
      s1.logs = s.logs ++ logsDeMerge gid c (fkMap g.tipo_entidade) s.banco
        (g.registro_ids.filter (fun id => id ≠ c)) ∧
      (∀ fk ∈ fkMap g.tipo_entidade, s1.banco.fkLinhas fk.tabela fk.coluna =
        redirigirTudo (g.registro_ids.filter (fun id => id ≠ c)) c
          (s.banco.fkLinhas fk.tabela fk.coluna)) ∧
      (∀ T C, (∀ fk ∈ fkMap g.tipo_entidade, ¬(fk.tabela = T ∧ fk.coluna = C)) →
        s1.banco.fkLinhas T C = s.banco.fkLinhas T C) ∧
      (∀ t i, s1.banco.excluido t i =
        if t = tab ∧ i ∈ g.registro_ids.filter (fun id => id ≠ c) then true
        else s.banco.excluido t i) ∧
      (∀ t i, s1.banco.nome t i =
        if t = tab ∧ i = c then nomeFinal.elim (s.banco.nome t i) some
        else s.banco.nome t i) := by
  have hcms : c ∉ g.registro_ids.filter (fun id => id ≠ c) := by
    simp [List.mem_filter]
  have hndms : (g.registro_ids.filter (fun id => id ≠ c)).Nodup :=
    hndids.filter _
  obtain ⟨mA, mB, mExc, mNome, mLogs, mTotal⟩ :=
    mergeFold_spec gid c tab (fkMap g.tipo_entidade) (fkMap_nodup _)
      (g.registro_ids.filter (fun id => id ≠ c)) ⟨s.banco, s.logs, 0⟩ hcms hndms
  cases nomeFinal with
  | none =>
    have hunif := unificar_spec s gid c tab g none executadoPor decisaoContexto hg hst htab
    refine ⟨_, _, hunif, ?_, ?_, ?_, ?_, ?_, ?_⟩
    · refine ⟨{ g with
          status := statusExecutado,
          registro_canonico_id := some c,
          nome_canonico := g.nome_canonico,
          executado_por := executadoPor.elim g.executado_por some,
          total_registros_afetados :=
            some ((g.registro_ids.filter (fun id => id ≠ c)).foldl
              (passoMembro gid c (fkMap g.tipo_entidade) tab)
              ⟨s.banco, s.logs, 0⟩).total,
          decisao_contexto := decisaoContexto.elim g.decisao_contexto some }, ?_, rfl, rfl⟩
      dsimp only
      rw [if_pos rfl]
      rfl
    · dsimp only
      exact mLogs
    · intro fk hfk
      dsimp only
      exact mA fk hfk
    · intro T C hT
      dsimp only
      exact mB T C hT
    · intro t i
      dsimp only
      exact mExc t i
    · intro t i
      dsimp only [Option.elim]
      rw [ite_self]
      have := congrFun (congrFun mNome t) i
      exact this
  | some nm =>
    have hunif := unificar_spec s gid c tab g (some nm) executadoPor decisaoContexto hg hst htab
    refine ⟨_, _, hunif, ?_, ?_, ?_, ?_, ?_, ?_⟩
    · refine ⟨{ g with
          status := statusExecutado,
          registro_canonico_id := some c,
          nome_canonico := some nm,
          executado_por := executadoPor.elim g.executado_por some,
          total_registros_afetados :=
            some ((g.registro_ids.filter (fun id => id ≠ c)).foldl
              (passoMembro gid c (fkMap g.tipo_entidade) tab)
              ⟨s.banco, s.logs, 0⟩).total,
          decisao_contexto := decisaoContexto.elim g.decisao_contexto some }, ?_, rfl, rfl⟩
      dsimp only
      rw [if_pos rfl]
      rfl
    · dsimp only
      exact mLogs
    · intro fk hfk
      dsimp only [definirNome]
      exact mA fk hfk
    · intro T C hT
      dsimp only [definirNome]
      exact mB T C hT
    · intro t i
      dsimp only [definirNome]
      exact mExc t i
    · intro t i
      dsimp only [definirNome, Option.elim]
      by_cases h : t = tab ∧ i = c
      · rw [if_pos h, if_pos h]
      · rw [if_neg h, if_neg h]
        have := congrFun (congrFun mNome t) i
        exact this

/-- Master round-trip characterization: a merge followed by a revert,
under the preconditions that make the revert actually run (a Pending
group with distinct member ids, distinct pk values per FK row list,
every eliminated member referenced somewhere, no eliminated member
already soft-deleted, and no stale unreverted logs), restores every FK
row list and every soft-delete flag; the rename and the status change
survive. -/
theorem roundTrip_spec (s : Estado) (gid c tab : String) (g : Grupo)
    (nomeFinal executadoPor decisaoContexto executadoPor2 : Option String)
    (hg : s.grupos gid = some g)
    (hst : g.status = statusPendente)
    (htab : tabelaEntidade g.tipo_entidade = some tab)
    (hlogs0 : ∀ l ∈ s.logs, ¬(l.grupo_id = gid ∧ l.revertido = false))
    (hndids : g.registro_ids.Nodup)
    (hndpk : ∀ fk ∈ fkMap g.tipo_entidade,
      ((s.banco.fkLinhas fk.tabela fk.coluna).map Prod.fst).Nodup)
    (hcobre : ∀ m ∈ (g.registro_ids.filter (fun id => id ≠ c)),
      ∃ fk ∈ fkMap g.tipo_entidade,
        selecionarPks (s.banco.fkLinhas fk.tabela fk.coluna) m ≠ [])
    (hexcl0 : ∀ m ∈ (g.registro_ids.filter (fun id => id ≠ c)), s.banco.excluido tab m = false)
    (helim : (g.registro_ids.filter (fun id => id ≠ c)) ≠ []) :
    ∃ s1 total s2 n,
      unificar s gid c nomeFinal executadoPor decisaoContexto = Except.ok (s1, total) ∧
      reverter s1 gid executadoPor2 = Except.ok (s2, n) ∧
      (∃ g1, s1.grupos gid = some g1 ∧ g1.status = statusExecutado) ∧
      (∃ g2, s2.grupos gid = some g2 ∧ g2.status = statusRevertido) ∧
      (∀ T C, s2.banco.fkLinhas T C = s.banco.fkLinhas T C) ∧
      (∀ t i, s2.banco.excluido t i = s.banco.excluido t i) ∧
      (∀ t i, s2.banco.nome t i = s1.banco.nome t i) ∧
      (∀ t i, s1.banco.nome t i =
        if t = tab ∧ i = c then nomeFinal.elim (s.banco.nome t i) some
        else s.banco.nome t i) ∧
      (∀ l ∈ s1.logs, l ∈ s.logs ∨
        (l.grupo_id = gid ∧ ∃ fk ∈ fkMap g.tipo_entidade,
          l.tabela_afetada = fk.tabela ∧ l.coluna_alterada = fk.coluna)) := by
  obtain ⟨s1, total, hunif, ⟨g1, hg1, hstG1, htipo⟩, hA3, hA4, hA5, hA6, hA7⟩ :=
    unificar_caracterizacao s gid c tab g nomeFinal executadoPor decisaoContexto
      hg hst htab hndids
  have hfiltro : s1.logs.filter (fun l => l.grupo_id = gid ∧ l.revertido = false) =
      (logsDeMerge gid c (fkMap g.tipo_entidade) s.banco (g.registro_ids.filter (fun id => id ≠ c))) := by
    have h1 : s.logs.filter (fun l => l.grupo_id = gid ∧ l.revertido = false) = [] := by
      refine List.filter_eq_nil_iff.mpr ?_
      intro l hl
      simp only [decide_eq_true_eq]
      exact hlogs0 l hl
    have h2 : (logsDeMerge gid c (fkMap g.tipo_entidade) s.banco (g.registro_ids.filter (fun id => id ≠ c))).filter (fun l => l.grupo_id = gid ∧ l.revertido = false) = (logsDeMerge gid c (fkMap g.tipo_entidade) s.banco (g.registro_ids.filter (fun id => id ≠ c))) := by
      refine List.filter_eq_self.mpr ?_
      intro l hl
      simp only [decide_eq_true_eq]
      rw [logsDeMerge_mem] at hl
      obtain ⟨m, hm, fk, hfk, pk, hpk, rfl⟩ := hl
      exact ⟨rfl, rfl⟩
    rw [hA3, List.filter_append, h1, h2, List.nil_append]
  have hLne : (logsDeMerge gid c (fkMap g.tipo_entidade) s.banco (g.registro_ids.filter (fun id => id ≠ c))) ≠ [] := by
    obtain ⟨m0, hm0⟩ := List.exists_mem_of_ne_nil _ helim
    obtain ⟨fk, hfk, hsel⟩ := hcobre m0 hm0
    obtain ⟨pk, hpk⟩ := List.exists_mem_of_ne_nil _ hsel
    have hmem : mkLogUnificar gid c m0 fk pk ∈ (logsDeMerge gid c (fkMap g.tipo_entidade) s.banco (g.registro_ids.filter (fun id => id ≠ c))) :=
      (logsDeMerge_mem _ _ _ _ _ _).mpr
        ⟨m0, hm0, fk, hfk, pk, (selecionarPks_mem _ _ _).mp hpk, rfl⟩
    intro hnil
    rw [hnil] at hmem
    exact absurd hmem (List.not_mem_nil _)
  have hne1 : s1.logs.filter (fun l => l.grupo_id = gid ∧ l.revertido = false) ≠ [] := by
    rw [hfiltro]
    exact hLne
  have htab1 : tabelaEntidade g1.tipo_entidade = some tab := by
    rw [htipo]
    exact htab
  have hdedup : ∀ j, j ∈ dedupPrimeiraOcorrencia
      ((logsDeMerge gid c (fkMap g.tipo_entidade) s.banco (g.registro_ids.filter (fun id => id ≠ c))).map (fun l => l.registro_eliminado_id)) ↔ j ∈ (g.registro_ids.filter (fun id => id ≠ c)) := by
    intro j
    rw [mem_dedup, List.mem_map]
    constructor
    · rintro ⟨log, hlog, rfl⟩
      rw [logsDeMerge_mem] at hlog
      obtain ⟨m, hm, fk, hfk, pk, hpk, rfl⟩ := hlog
      exact hm
    · intro hj
      obtain ⟨fk, hfk, hsel⟩ := hcobre j hj
      obtain ⟨pk, hpk⟩ := List.exists_mem_of_ne_nil _ hsel
      exact ⟨mkLogUnificar gid c j fk pk,
        (logsDeMerge_mem _ _ _ _ _ _).mpr
          ⟨j, hj, fk, hfk, pk, (selecionarPks_mem _ _ _).mp hpk, rfl⟩, rfl⟩
  have hrev := reverter_spec s1 gid tab g1 executadoPor2 hg1 hstG1 htab1 hne1
  refine ⟨s1, total, _, _, hunif, hrev, ⟨g1, hg1, hstG1⟩, ?_, ?_, ?_, ?_, hA7, ?_⟩
  · refine ⟨{ g1 with status := statusRevertido }, ?_, rfl⟩
    dsimp only
    rw [if_pos rfl]
  · intro T C
    dsimp only
    rw [foldl_definirExcluido_fkLinhas tab, foldl_reverterLog_fkLinhas, hfiltro,
      foldl_map_efeito]
    by_cases hTC : ∃ fk ∈ fkMap g.tipo_entidade, fk.tabela = T ∧ fk.coluna = C
    · obtain ⟨fk, hfk, hT, hC⟩ := hTC
      subst hT
      subst hC
      rw [hA4 fk hfk]
      simp only [redirigirTudo]
      rw [List.map_map]
      refine Eq.trans (List.map_congr_left ?_) (List.map_id _)
      intro r hr
      obtain ⟨p, w⟩ := r
      simp only [Function.comp_apply, id_eq]
      have key : ∀ log ∈ (logsDeMerge gid c (fkMap g.tipo_entidade) s.banco (g.registro_ids.filter (fun id => id ≠ c))),
          (log.tabela_afetada = fk.tabela ∧ log.coluna_alterada = fk.coluna ∧
            p = log.registro_afetado_id) → log.valor_anterior = w := by
        intro log hlog hmatch
        rw [logsDeMerge_mem] at hlog
        obtain ⟨m, hm, fk2, hfk2, pk, hpk, rfl⟩ := hlog
        simp only [mkLogUnificar] at hmatch
        obtain ⟨hmt, hmc, hmp⟩ := hmatch
        have hfkeq : fk2 = fk :=
          List.inj_on_of_nodup_map (fkMap_nodup g.tipo_entidade) hfk2 hfk
            (Prod.ext hmt hmc)
        subst hfkeq
        have hpm : (p, m) ∈ s.banco.fkLinhas fk2.tabela fk2.coluna := by
          rw [hmp]
          exact hpk
        exact nodup_fst_unico (hndpk fk2 hfk2) hpm hr
      by_cases hw : w ∈ (g.registro_ids.filter (fun id => id ≠ c))
      · rw [if_pos hw]
        exact (efeito_fold_resultado fk.tabela fk.coluna w p (logsDeMerge gid c (fkMap g.tipo_entidade) s.banco (g.registro_ids.filter (fun id => id ≠ c))) c key).1
          ⟨mkLogUnificar gid c w fk p,
            (logsDeMerge_mem _ _ _ _ _ _).mpr ⟨w, hw, fk, hfk, p, hr, rfl⟩,
            ⟨rfl, rfl, rfl⟩⟩
      · rw [if_neg hw]
        refine (efeito_fold_resultado fk.tabela fk.coluna w p (logsDeMerge gid c (fkMap g.tipo_entidade) s.banco (g.registro_ids.filter (fun id => id ≠ c))) w key).2 ?_
        intro log hlog hmatch
        rw [logsDeMerge_mem] at hlog
        obtain ⟨m, hm, fk2, hfk2, pk, hpk, rfl⟩ := hlog
        simp only [mkLogUnificar] at hmatch
        obtain ⟨hmt, hmc, hmp⟩ := hmatch
        have hfkeq : fk2 = fk :=
          List.inj_on_of_nodup_map (fkMap_nodup g.tipo_entidade) hfk2 hfk
            (Prod.ext hmt hmc)
        subst hfkeq
        have hpm : (p, m) ∈ s.banco.fkLinhas fk2.tabela fk2.coluna := by
          rw [hmp]
          exact hpk
        have hmw : m = w := nodup_fst_unico (hndpk fk2 hfk2) hpm hr
        rw [hmw] at hm
        exact hw hm
    · have hTC2 : ∀ fk ∈ fkMap g.tipo_entidade, ¬(fk.tabela = T ∧ fk.coluna = C) :=
        fun fk hfk hpair => hTC ⟨fk, hfk, hpair.1, hpair.2⟩
      rw [hA5 T C hTC2]
      refine Eq.trans (List.map_congr_left ?_) (List.map_id _)
      intro r hr
      obtain ⟨p, w⟩ := r
      simp only [id_eq]
      have hnada : ∀ log ∈ (logsDeMerge gid c (fkMap g.tipo_entidade) s.banco (g.registro_ids.filter (fun id => id ≠ c))),
          ¬(log.tabela_afetada = T ∧ log.coluna_alterada = C ∧
            p = log.registro_afetado_id) := by
        intro log hlog hmatch
        rw [logsDeMerge_mem] at hlog
        obtain ⟨m, hm, fk2, hfk2, pk, hpk, rfl⟩ := hlog
        simp only [mkLogUnificar] at hmatch
        exact hTC2 fk2 hfk2 ⟨hmatch.1, hmatch.2.1⟩
      exact (efeito_fold_resultado T C w p (logsDeMerge gid c (fkMap g.tipo_entidade) s.banco (g.registro_ids.filter (fun id => id ≠ c))) w
        (fun log hl hm => absurd hm (hnada log hl))).2 hnada
  · intro t i
    dsimp only
    rw [foldl_definirExcluido_excluido tab, foldl_reverterLog_excluido, hfiltro,
      hA6 t i]
    by_cases h1 : t = tab ∧ i ∈ (g.registro_ids.filter (fun id => id ≠ c))
    · have hd : t = tab ∧ i ∈ dedupPrimeiraOcorrencia
          ((logsDeMerge gid c (fkMap g.tipo_entidade) s.banco (g.registro_ids.filter (fun id => id ≠ c))).map (fun l => l.registro_eliminado_id)) :=
        ⟨h1.1, (hdedup i).mpr h1.2⟩
      rw [if_pos hd, h1.1]
      exact (hexcl0 i h1.2).symm
    · have hd : ¬(t = tab ∧ i ∈ dedupPrimeiraOcorrencia
          ((logsDeMerge gid c (fkMap g.tipo_entidade) s.banco (g.registro_ids.filter (fun id => id ≠ c))).map (fun l => l.registro_eliminado_id))) :=
        fun hcon => h1 ⟨hcon.1, (hdedup i).mp hcon.2⟩
      rw [if_neg hd, if_neg h1]
  · intro t i
    dsimp only
    rw [foldl_definirExcluido_nome tab, foldl_reverterLog_nome]
  · intro l hl
    rw [hA3] at hl
    rcases List.mem_append.mp hl with h | h
    · exact Or.inl h
    · right
      rw [logsDeMerge_mem] at h
      obtain ⟨m, hm, fk, hfk, pk, hpk, rfl⟩ := h
      exact ⟨rfl, fk, hfk, rfl, rfl⟩

/-- C1 (amended): for a Pending group whose member ids are distinct,
whose mapped FK row lists carry distinct pk values, whose eliminated
members are each referenced by at least one row and are not already
soft-deleted, and with no stale unreverted log rows, `unificar` then
`reverter` walks Pendente to Executado to Revertido and restores every
FK row list and every soft-delete flag to the pre-merge state.  (The
claim as stated, without these provisos, is refuted by
`claim_C1_counterexample`: a member with no referencing rows produces no
log rows, so `reverter` degenerates to a no-op that leaves the group
Executado and the member soft-deleted.) -/
theorem claim_C1_amended (s : Estado) (gid c tab : String) (g : Grupo)
    (nomeFinal executadoPor decisaoContexto executadoPor2 : Option String)
    (hg : s.grupos gid = some g)
    (hst : g.status = statusPendente)
    (htab : tabelaEntidade g.tipo_entidade = some tab)
    (hlogs0 : ∀ l ∈ s.logs, ¬(l.grupo_id = gid ∧ l.revertido = false))
    (hndids : g.registro_ids.Nodup)
    (hndpk : ∀ fk ∈ fkMap g.tipo_entidade,
      ((s.banco.fkLinhas fk.tabela fk.coluna).map Prod.fst).Nodup)
    (hcobre : ∀ m ∈ (g.registro_ids.filter (fun id => id ≠ c)),
      ∃ fk ∈ fkMap g.tipo_entidade,
        selecionarPks (s.banco.fkLinhas fk.tabela fk.coluna) m ≠ [])
    (hexcl0 : ∀ m ∈ (g.registro_ids.filter (fun id => id ≠ c)), s.banco.excluido tab m = false)
    (helim : (g.registro_ids.filter (fun id => id ≠ c)) ≠ []) :
    ∃ s1 total s2 n,
      unificar s gid c nomeFinal executadoPor decisaoContexto = Except.ok (s1, total) ∧
      reverter s1 gid executadoPor2 = Except.ok (s2, n) ∧
      (∃ g1, s1.grupos gid = some g1 ∧ g1.status = statusExecutado) ∧
      (∃ g2, s2.grupos gid = some g2 ∧ g2.status = statusRevertido) ∧
      (∀ T C, s2.banco.fkLinhas T C = s.banco.fkLinhas T C) ∧
      (∀ t i, s2.banco.excluido t i = s.banco.excluido t i) := by
  obtain ⟨s1, total, s2, n, hunif, hrev, hg1, hg2, hrows, hexc, -, -, -⟩ :=
    roundTrip_spec s gid c tab g nomeFinal executadoPor decisaoContexto executadoPor2
      hg hst htab hlogs0 hndids hndpk hcobre hexcl0 helim
  exact ⟨s1, total, s2, n, hunif, hrev, hg1, hg2, hrows, hexc⟩

/-- Witness for C1 (amended) on the concrete example state: group
`g4 = \x7bA, B\x7d`, canonical `A`, member `B` referenced by a
`logradouro` row and an `empresa` row. -/
theorem claim_C1_witness :
    ∃ s1 total s2 n,
      unificar estadoExemploC1W "g4" "A" none none none = Except.ok (s1, total) ∧
      reverter s1 "g4" none = Except.ok (s2, n) ∧
      (∃ g1, s1.grupos "g4" = some g1 ∧ g1.status = statusExecutado) ∧
      (∃ g2, s2.grupos "g4" = some g2 ∧ g2.status = statusRevertido) ∧
      (∀ T C, s2.banco.fkLinhas T C = estadoExemploC1W.banco.fkLinhas T C) ∧
      (∀ t i, s2.banco.excluido t i = estadoExemploC1W.banco.excluido t i) :=
  claim_C1_amended estadoExemploC1W "g4" "A" "bairro"
    { tipo_entidade := 2, status := 1, registro_ids := ["A", "B"],
      registro_canonico_id := none, nome_canonico := none,
      executado_por := none, total_registros_afetados := none,
      decisao_contexto := none }
    none none none none
    rfl rfl rfl (by decide) (by decide) (by decide) (by decide) (by decide) (by decide)

/-- C10 (confirmed): the rename performed by `unificar` with a non-null
`nomeFinal` leaves no trace in `ms_merge_log` — every log row written by
the merge records one of the FK-map columns, never the `nome` column —
and `reverter` restores FK rows and soft-delete flags but keeps the
canonical row's `nome` equal to the chosen final name. -/
theorem claim_C10_renome (s : Estado) (gid c tab : String) (g : Grupo) (nm : String)
    (executadoPor decisaoContexto executadoPor2 : Option String)
    (hg : s.grupos gid = some g)
    (hst : g.status = statusPendente)
    (htab : tabelaEntidade g.tipo_entidade = some tab)
    (hlogs0 : ∀ l ∈ s.logs, ¬(l.grupo_id = gid ∧ l.revertido = false))
    (hndids : g.registro_ids.Nodup)
    (hndpk : ∀ fk ∈ fkMap g.tipo_entidade,
      ((s.banco.fkLinhas fk.tabela fk.coluna).map Prod.fst).Nodup)
    (hcobre : ∀ m ∈ (g.registro_ids.filter (fun id => id ≠ c)),
      ∃ fk ∈ fkMap g.tipo_entidade,
        selecionarPks (s.banco.fkLinhas fk.tabela fk.coluna) m ≠ [])
    (hexcl0 : ∀ m ∈ (g.registro_ids.filter (fun id => id ≠ c)), s.banco.excluido tab m = false)
    (helim : (g.registro_ids.filter (fun id => id ≠ c)) ≠ []) :
    ∃ s1 total s2 n,
      unificar s gid c (some nm) executadoPor decisaoContexto = Except.ok (s1, total) ∧
      reverter s1 gid executadoPor2 = Except.ok (s2, n) ∧
      s1.banco.nome tab c = some nm ∧
      s2.banco.nome tab c = some nm ∧
      (∀ l ∈ s1.logs, l ∉ s.logs → l.coluna_alterada ≠ "nome") ∧
      (∀ T C, s2.banco.fkLinhas T C = s.banco.fkLinhas T C) ∧
      (∀ t i, s2.banco.excluido t i = s.banco.excluido t i) := by
  obtain ⟨s1, total, s2, n, hunif, hrev, -, -, hrows, hexc, hnome21, hnome1, hlogsc⟩ :=
    roundTrip_spec s gid c tab g (some nm) executadoPor decisaoContexto executadoPor2
      hg hst htab hlogs0 hndids hndpk hcobre hexcl0 helim
  have hn1 : s1.banco.nome tab c = some nm := by
    rw [hnome1 tab c, if_pos ⟨rfl, rfl⟩]
    rfl
  refine ⟨s1, total, s2, n, hunif, hrev, hn1, ?_, ?_, hrows, hexc⟩
  · rw [hnome21 tab c]
    exact hn1
  · intro l hl hlfora
    rcases hlogsc l hl with h | ⟨-, fk, hfk, -, hcol⟩
    · exact absurd h hlfora
    · rw [hcol]
      exact fkMap_coluna g.tipo_entidade fk hfk

/-- Witness for C10 on the concrete example state: merging `g4` into
`A` with final name `Centro Novo`. -/
theorem claim_C10_witness :
    ∃ s1 total s2 n,
      unificar estadoExemploC1W "g4" "A" (some "Centro Novo") none none =
        Except.ok (s1, total) ∧
      reverter s1 "g4" none = Except.ok (s2, n) ∧
      s1.banco.nome "bairro" "A" = some "Centro Novo" ∧
      s2.banco.nome "bairro" "A" = some "Centro Novo" ∧
      (∀ l ∈ s1.logs, l ∉ estadoExemploC1W.logs → l.coluna_alterada ≠ "nome") ∧
      (∀ T C, s2.banco.fkLinhas T C = estadoExemploC1W.banco.fkLinhas T C) ∧
      (∀ t i, s2.banco.excluido t i = estadoExemploC1W.banco.excluido t i) :=
  claim_C10_renome estadoExemploC1W "g4" "A" "bairro"
    { tipo_entidade := 2, status := 1, registro_ids := ["A", "B"],
      registro_canonico_id := none, nome_canonico := none,
      executado_por := none, total_registros_afetados := none,
      decisao_contexto := none }
    "Centro Novo" none none none
    rfl rfl rfl (by decide) (by decide) (by decide) (by decide) (by decide) (by decide)

/-- Witness for C3: `descartar` on the Executado example group succeeds
and lands on Descartado. -/
theorem claim_C3_witness :
    ∃ s2, descartar estadoExemploC3 "g2" none none = Except.ok s2 ∧
      ∃ g2, s2.grupos "g2" = some g2 ∧ g2.status = statusDescartado := by
  refine ⟨_, rfl, ?_⟩
  obtain ⟨g, hg, g2, hg2, hstatus, -⟩ :=
    (claim_C3_amended estadoExemploC3 "g2" "" none none none).2.2 _ rfl
  exact ⟨g2, hg2, hstatus⟩

/-! ## C7 — the normalizer: word-splitting infrastructure -/

/-- `takeWhile` walks through a prefix on which the predicate holds. -/
theorem takeWhile_append_all {p : Char → Bool} :
    ∀ (xs ys : List Char), (∀ c ∈ xs, p c = true) →
      (xs ++ ys).takeWhile p = xs ++ ys.takeWhile p := by
  intro xs
  induction xs with
  | nil => intro ys _; rfl
  | cons a xs ih =>
    intro ys h
    simp [List.cons_append, List.takeWhile_cons,
      h a (List.mem_cons_self _ _), ih ys (fun c hc => h c (List.mem_cons_of_mem _ hc))]

/-- `dropWhile` crosses a prefix on which the predicate holds. -/
theorem dropWhile_append_all {p : Char → Bool} :
    ∀ (xs ys : List Char), (∀ c ∈ xs, p c = true) →
      (xs ++ ys).dropWhile p = ys.dropWhile p := by
  intro xs
  induction xs with
  | nil => intro ys _; rfl
  | cons a xs ih =>
    intro ys h
    simp [List.cons_append, List.dropWhile_cons,
      h a (List.mem_cons_self _ _), ih ys (fun c hc => h c (List.mem_cons_of_mem _ hc))]

/-- `takeWhile` over all-true lists. -/
theorem takeWhile_all {p : Char → Bool} (xs : List Char)
    (h : ∀ c ∈ xs, p c = true) : xs.takeWhile p = xs := by
  have := takeWhile_append_all xs [] h
  simpa using this

/-- `dropWhile` over all-true lists. -/
theorem dropWhile_all {p : Char → Bool} (xs : List Char)
    (h : ∀ c ∈ xs, p c = true) : xs.dropWhile p = [] := by
  have := dropWhile_append_all xs [] h
  simpa using this

/-- An empty `dropWhile` means the predicate held everywhere. -/
theorem dropWhile_nil_all {p : Char → Bool} :
    ∀ (xs : List Char), xs.dropWhile p = [] → ∀ c ∈ xs, p c = true := by
  intro xs
  induction xs with
  | nil => intro _ c hc; cases hc
  | cons a xs ih =>
    intro h c hc
    rw [List.dropWhile_cons] at h
    split at h
    next hp =>
      rcases List.mem_cons.mp hc with rfl | hc2
      · exact hp
      · exact ih h c hc2
    next hp => cases h

/-- The head exposed by `dropWhile` falsifies the predicate. -/
theorem dropWhile_head_false {p : Char → Bool} :
    ∀ (xs : List Char) (d : Char) (S : List Char),
      xs.dropWhile p = d :: S → p d = false := by
  intro xs
  induction xs with
  | nil => intro d S h; cases h
  | cons a xs ih =>
    intro d S h
    rw [List.dropWhile_cons] at h
    split at h
    next => exact ih d S h
    next hp =>
      injection h with h1 h2
      subst h1
      exact Bool.not_eq_true _ ▸ Bool.of_not_eq_true hp

/-- `takeWhile`/`dropWhile` across an append when the walk already stops
inside the left part. -/
theorem takeWhile_append_stop {p : Char → Bool} :
    ∀ (xs : List Char) (d : Char) (S ys : List Char), xs.dropWhile p = d :: S →
      (xs ++ ys).takeWhile p = xs.takeWhile p ∧
      (xs ++ ys).dropWhile p = d :: (S ++ ys) := by
  intro xs
  induction xs with
  | nil => intro d S ys h; cases h
  | cons a xs ih =>
    intro d S ys h
    rw [List.dropWhile_cons] at h
    by_cases hp : p a = true
    · rw [if_pos hp] at h
      obtain ⟨h1, h2⟩ := ih d S ys h
      constructor
      · simp [List.cons_append, List.takeWhile_cons, hp, h1]
      · simp [List.cons_append, List.dropWhile_cons, hp, h2]
    · rw [if_neg hp] at h
      injection h with h1 h2
      subst h1
      subst h2
      constructor
      · simp [List.cons_append, List.takeWhile_cons, hp]
      · simp [List.cons_append, List.dropWhile_cons, hp]

/-- Members of a `takeWhile` satisfy the predicate. -/
theorem mem_takeWhile_pred {p : Char → Bool} :
    ∀ (l : List Char) (a : Char), a ∈ l.takeWhile p → p a = true := by
  intro l
  induction l with
  | nil => intro a ha; cases ha
  | cons x l ih =>
    intro a ha
    rw [List.takeWhile_cons] at ha
    split at ha
    next hx =>
      rcases List.mem_cons.mp ha with rfl | ha2
      · exact hx
      · exact ih a ha2
    next hx => cases ha

/-- Splitting off a leading whitespace character. -/
theorem palavras_espaco (c : Char) (cs : List Char) (h : ehEspaco c = true) :
    palavras (c :: cs) = palavras cs := by
  simp only [palavras, palavrasAux, h, if_true, List.isEmpty_nil]

/-- General form of the accumulator invariant of `palavrasAux`. -/
theorem palavrasAux_geral :
    ∀ (cs w : List Char), w ≠ [] →
      palavrasAux cs w = (w.reverse ++ cs.takeWhile (fun c => !ehEspaco c)) ::
        palavras (cs.dropWhile (fun c => !ehEspaco c)) := by
  intro cs
  induction cs with
  | nil =>
    intro w hw
    simp [palavrasAux, List.isEmpty_iff, hw, palavras]
  | cons c cs ih =>
    intro w hw
    by_cases hc : ehEspaco c = true
    · have hl : palavrasAux (c :: cs) w = w.reverse :: palavrasAux cs [] := by
        simp [palavrasAux, hc, List.isEmpty_iff, hw]
      have ht : List.takeWhile (fun c => !ehEspaco c) (c :: cs) = [] := by
        simp [List.takeWhile_cons, hc]
      have hd : List.dropWhile (fun c => !ehEspaco c) (c :: cs) = c :: cs := by
        simp [List.dropWhile_cons, hc]
      rw [hl, ht, hd, palavras_espaco c cs hc]
      simp [palavras]
    · have hc2 : ehEspaco c = false := Bool.of_not_eq_true hc
      have hl : palavrasAux (c :: cs) w = palavrasAux cs (c :: w) := by
        simp [palavrasAux, hc2]
      have ht : List.takeWhile (fun c => !ehEspaco c) (c :: cs) =
          c :: List.takeWhile (fun c => !ehEspaco c) cs := by
        simp [List.takeWhile_cons, hc2]
      have hd : List.dropWhile (fun c => !ehEspaco c) (c :: cs) =
          List.dropWhile (fun c => !ehEspaco c) cs := by
        simp [List.dropWhile_cons, hc2]
      rw [hl, ih (c :: w) (List.cons_ne_nil c w), ht, hd]
      simp

/-- Splitting off a leading word. -/
theorem palavras_palavra (c : Char) (cs : List Char) (h : ehEspaco c = false) :
    palavras (c :: cs) = (c :: cs.takeWhile (fun c => !ehEspaco c)) ::
      palavras (cs.dropWhile (fun c => !ehEspaco c)) := by
  have hstep : palavras (c :: cs) = palavrasAux cs [c] := by
    simp [palavras, palavrasAux, h]
  rw [hstep, palavrasAux_geral cs [c] (List.cons_ne_nil c [])]
  rfl

/-- Every word produced by `palavras` is nonempty, whitespace-free, and
drawn from the input. -/
theorem palavras_boas :
    ∀ (n : Nat) (s : List Char), s.length ≤ n → ∀ w ∈ palavras s,
      w ≠ [] ∧ ∀ c ∈ w, ehEspaco c = false ∧ c ∈ s := by
  intro n
  induction n with
  | zero =>
    intro s hs w hw
    rw [List.length_eq_zero.mp (Nat.le_zero.mp hs)] at hw
    cases hw
  | succ n ih =>
    intro s hs w hw
    cases s with
    | nil => cases hw
    | cons c cs =>
      have hlen : cs.length ≤ n := by
        simp only [List.length_cons] at hs
        omega
      by_cases hc : ehEspaco c = true
      · rw [palavras_espaco c cs hc] at hw
        obtain ⟨h1, h2⟩ := ih cs hlen w hw
        exact ⟨h1, fun a ha => ⟨(h2 a ha).1, List.mem_cons_of_mem _ (h2 a ha).2⟩⟩
      · have hc2 : ehEspaco c = false := Bool.of_not_eq_true hc
        rw [palavras_palavra c cs hc2] at hw
        rcases List.mem_cons.mp hw with rfl | hw2
        · refine ⟨List.cons_ne_nil _ _, ?_⟩
          intro a ha
          rcases List.mem_cons.mp ha with rfl | ha2
          · exact ⟨hc2, List.mem_cons_self _ _⟩
          · have hpa : (!ehEspaco a) = true := mem_takeWhile_pred _ a ha2
            have hmem : a ∈ cs := (List.takeWhile_sublist _).subset ha2
            exact ⟨by simpa using hpa, List.mem_cons_of_mem _ hmem⟩
        · have hlen2 : (cs.dropWhile (fun c => !ehEspaco c)).length ≤ n :=
            le_trans (List.dropWhile_sublist _).length_le hlen
          obtain ⟨h1, h2⟩ := ih _ hlen2 w hw2
          refine ⟨h1, fun a ha => ⟨(h2 a ha).1, ?_⟩⟩
          exact List.mem_cons_of_mem _ ((List.dropWhile_sublist _).subset (h2 a ha).2)

/-- Convenient instance of `palavras_boas`. -/
theorem palavras_boa (s : List Char) (w : List Char) (hw : w ∈ palavras s) :
    w ≠ [] ∧ ∀ c ∈ w, ehEspaco c = false ∧ c ∈ s :=
  palavras_boas s.length s le_rfl w hw

/-- `palavras` undoes `juntar` on lists of nonempty whitespace-free
words. -/
theorem palavras_juntar :
    ∀ (ws : List (List Char)), (∀ w ∈ ws, w ≠ []) →
      (∀ w ∈ ws, ∀ c ∈ w, ehEspaco c = false) → palavras (juntar ws) = ws := by
  intro ws
  induction ws with
  | nil => intro _ _; rfl
  | cons w ws ih =>
    intro h1 h2
    cases ws with
    | nil =>
      cases w with
      | nil => exact absurd rfl (h1 [] (List.mem_cons_self _ _))
      | cons c rest =>
        have hc : ehEspaco c = false :=
          (h2 _ (List.mem_cons_self _ _)) c (List.mem_cons_self _ _)
        have hrest : ∀ a ∈ rest, (fun c => !ehEspaco c) a = true := by
          intro a ha
          have := (h2 _ (List.mem_cons_self _ _)) a (List.mem_cons_of_mem _ ha)
          simp [this]
        show palavras (c :: rest) = [c :: rest]
        rw [palavras_palavra c rest hc, takeWhile_all rest hrest,
          dropWhile_all rest hrest]
        rfl
    | cons w2 ws2 =>
      cases w with
      | nil => exact absurd rfl (h1 [] (List.mem_cons_self _ _))
      | cons c rest =>
        have hc : ehEspaco c = false :=
          (h2 _ (List.mem_cons_self _ _)) c (List.mem_cons_self _ _)
        have hrest : ∀ a ∈ rest, (fun c => !ehEspaco c) a = true := by
          intro a ha
          have := (h2 _ (List.mem_cons_self _ _)) a (List.mem_cons_of_mem _ ha)
          simp [this]
        show palavras ((c :: rest) ++ ' ' :: juntar (w2 :: ws2)) = _
        rw [List.cons_append, palavras_palavra c _ hc,
          takeWhile_append_all rest _ hrest, dropWhile_append_all rest _ hrest]
        have hesp : ehEspaco ' ' = true := by decide
        have ht : List.takeWhile (fun c => !ehEspaco c) (' ' :: juntar (w2 :: ws2)) = [] := by
          rw [List.takeWhile_cons]
          simp [hesp]
        have hd : List.dropWhile (fun c => !ehEspaco c) (' ' :: juntar (w2 :: ws2)) =
            ' ' :: juntar (w2 :: ws2) := by
          rw [List.dropWhile_cons]
          simp [hesp]
        rw [ht, hd, palavras_espaco ' ' _ (by decide),
          ih (fun v hv => h1 v (List.mem_cons_of_mem _ hv))
             (fun v hv => h2 v (List.mem_cons_of_mem _ hv))]
        simp

/-- The whitespace collapse-and-trim is idempotent. -/
theorem normChaves_idem (z : List Char) : normChaves (normChaves z) = normChaves z := by
  unfold normChaves
  rw [palavras_juntar (palavras z)
    (fun w hw => (palavras_boa z w hw).1)
    (fun w hw c hc => ((palavras_boa z w hw).2 c hc).1)]

/-! ## C7 — the numeral rewrite -/

/-- Facts about the numeral table, checked by evaluation: values are
nonempty digit strings of word characters and are never keys again. -/
theorem mapa_fatos : ∀ p ∈ mapaNumerico, p.2 ≠ [] ∧ (∀ c ∈ p.2, c ∈ digitos) ∧
    (∀ c ∈ p.2, ehCaracterePalavra c = true) ∧
    mapaNumerico.find? (fun q => q.1 = p.2) = none := by decide

/-- Facts about digit characters, checked by evaluation. -/
theorem digitos_fatos : ∀ c ∈ digitos, ehEspaco c = false ∧
    ehCaracterePalavra c = true ∧ fold1 c = [c] := by decide

/-- A whitespace character is not a word character. -/
theorem espaco_nao_wc (c : Char) (h : ehEspaco c = true) :
    ehCaracterePalavra c = false := by
  simp only [ehEspaco, Bool.or_eq_true, decide_eq_true_eq] at h
  rcases h with ((rfl | rfl) | rfl) | rfl <;> decide

/-- `substNumeral` keeps nonemptiness. -/
theorem substNumeral_ne_nil (w : List Char) (hw : w ≠ []) : substNumeral w ≠ [] := by
  cases hf : mapaNumerico.find? (fun p => p.1 = w) with
  | none => simpa [substNumeral, hf] using hw
  | some p =>
    have hp := List.mem_of_find?_eq_some hf
    simpa [substNumeral, hf] using (mapa_fatos p hp).1

/-- Characters of a `substNumeral` output come from the input or are
digits. -/
theorem substNumeral_chars (w : List Char) :
    ∀ c ∈ substNumeral w, c ∈ w ∨ c ∈ digitos := by
  intro c hc
  cases hf : mapaNumerico.find? (fun p => p.1 = w) with
  | none =>
    rw [substNumeral, hf] at hc
    exact Or.inl hc
  | some p =>
    rw [substNumeral, hf] at hc
    exact Or.inr ((mapa_fatos p (List.mem_of_find?_eq_some hf)).2.1 c hc)

/-- `substNumeral` keeps the all-word-characters property. -/
theorem substNumeral_wc (w : List Char) (h : ∀ c ∈ w, ehCaracterePalavra c = true) :
    ∀ c ∈ substNumeral w, ehCaracterePalavra c = true := by
  intro c hc
  rcases substNumeral_chars w c hc with h2 | h2
  · exact h c h2
  · exact (digitos_fatos c h2).2.1

/-- `substNumeral` is idempotent. -/
theorem substNumeral_idem (w : List Char) :
    substNumeral (substNumeral w) = substNumeral w := by
  cases hf : mapaNumerico.find? (fun p => p.1 = w) with
  | none =>
    have hsw : substNumeral w = w := by rw [substNumeral, hf]
    rw [hsw]
    exact hsw
  | some p =>
    have hsw : substNumeral w = p.2 := by rw [substNumeral, hf]
    have hnone := (mapa_fatos p (List.mem_of_find?_eq_some hf)).2.2.2
    rw [hsw, substNumeral, hnone]

/-- Splitting off a leading non-word character. -/
theorem trocar_naopalavra (c : Char) (cs : List Char)
    (h : ehCaracterePalavra c = false) :
    trocarNumerais (c :: cs) = c :: trocarNumerais cs := by
  simp [trocarNumerais, trocarAux, h]

/-- General form of the accumulator invariant of `trocarAux`. -/
theorem trocarAux_geral :
    ∀ (cs run : List Char), run ≠ [] →
      trocarAux cs run =
        substNumeral (run.reverse ++ cs.takeWhile ehCaracterePalavra) ++
          trocarNumerais (cs.dropWhile ehCaracterePalavra) := by
  intro cs
  induction cs with
  | nil =>
    intro run hrun
    simp [trocarAux, List.isEmpty_iff, hrun, trocarNumerais]
  | cons c cs ih =>
    intro run hrun
    by_cases hc : ehCaracterePalavra c = true
    · have hl : trocarAux (c :: cs) run = trocarAux cs (c :: run) := by
        simp [trocarAux, hc]
      rw [hl, ih (c :: run) (List.cons_ne_nil c run)]
      have ht : List.takeWhile ehCaracterePalavra (c :: cs) =
          c :: List.takeWhile ehCaracterePalavra cs := by
        simp [List.takeWhile_cons, hc]
      have hd : List.dropWhile ehCaracterePalavra (c :: cs) =
          List.dropWhile ehCaracterePalavra cs := by
        simp [List.dropWhile_cons, hc]
      rw [ht, hd]
      simp
    · have hc2 : ehCaracterePalavra c = false := Bool.of_not_eq_true hc
      have hl : trocarAux (c :: cs) run =
          substNumeral run.reverse ++ c :: trocarAux cs [] := by
        simp [trocarAux, hc2, List.isEmpty_iff, hrun]
      have ht : List.takeWhile ehCaracterePalavra (c :: cs) = [] := by
        simp [List.takeWhile_cons, hc2]
      have hd : List.dropWhile ehCaracterePalavra (c :: cs) = c :: cs := by
        simp [List.dropWhile_cons, hc2]
      rw [hl, ht, hd, trocar_naopalavra c cs hc2]
      simp [trocarNumerais]

/-- Splitting off a leading run of word characters. -/
theorem trocar_palavra (c : Char) (cs : List Char) (h : ehCaracterePalavra c = true) :
    trocarNumerais (c :: cs) =
      substNumeral (c :: cs.takeWhile ehCaracterePalavra) ++
        trocarNumerais (cs.dropWhile ehCaracterePalavra) := by
  have hstep : trocarNumerais (c :: cs) = trocarAux cs [c] := by
    simp [trocarNumerais, trocarAux, h]
  rw [hstep, trocarAux_geral cs [c] (List.cons_ne_nil c [])]
  rfl

/-- A pure word is rewritten in one `substNumeral` step. -/
theorem trocar_pura (V : List Char) (h1 : ∀ c ∈ V, ehCaracterePalavra c = true)
    (h2 : V ≠ []) : trocarNumerais V = substNumeral V := by
  cases V with
  | nil => exact absurd rfl h2
  | cons c rest =>
    have hall : ∀ a ∈ rest, ehCaracterePalavra a = true :=
      fun a ha => h1 a (List.mem_cons_of_mem _ ha)
    rw [trocar_palavra c rest (h1 c (List.mem_cons_self _ _)),
      takeWhile_all rest hall, dropWhile_all rest hall]
    simp [trocarNumerais, trocarAux]

/-- `trocarNumerais` keeps nonemptiness. -/
theorem trocar_ne_nil (X : List Char) (h : X ≠ []) : trocarNumerais X ≠ [] := by
  cases X with
  | nil => exact absurd rfl h
  | cons c cs =>
    by_cases hc : ehCaracterePalavra c = true
    · rw [trocar_palavra c cs hc]
      intro hnil
      obtain ⟨h1, -⟩ := List.append_eq_nil.mp hnil
      exact substNumeral_ne_nil _ (List.cons_ne_nil _ _) h1
    · rw [trocar_naopalavra c cs (Bool.of_not_eq_true hc)]
      exact List.cons_ne_nil _ _

/-- Characters of a `trocarAux` output come from the input, the
accumulator, or the digits. -/
theorem chars_trocarAux :
    ∀ (cs run : List Char) (c : Char), c ∈ trocarAux cs run →
      c ∈ cs ∨ c ∈ run ∨ c ∈ digitos := by
  intro cs
  induction cs with
  | nil =>
    intro run c hc
    simp only [trocarAux] at hc
    split at hc
    next => cases hc
    next =>
      rcases substNumeral_chars _ c hc with h2 | h2
      · exact Or.inr (Or.inl (List.mem_reverse.mp h2))
      · exact Or.inr (Or.inr h2)
  | cons c0 cs ih =>
    intro run c hc
    simp only [trocarAux] at hc
    split at hc
    next =>
      rcases ih (c0 :: run) c hc with h2 | h2 | h2
      · exact Or.inl (List.mem_cons_of_mem _ h2)
      · rcases List.mem_cons.mp h2 with rfl | h3
        · exact Or.inl (List.mem_cons_self _ _)
        · exact Or.inr (Or.inl h3)
      · exact Or.inr (Or.inr h2)
    next =>
      rcases List.mem_append.mp hc with h2 | h2
      · split at h2
        next => cases h2
        next =>
          rcases substNumeral_chars _ c h2 with h3 | h3
          · exact Or.inr (Or.inl (List.mem_reverse.mp h3))
          · exact Or.inr (Or.inr h3)
      · rcases List.mem_cons.mp h2 with rfl | h3
        · exact Or.inl (List.mem_cons_self _ _)
        · rcases ih [] c h3 with h4 | h4 | h4
          · exact Or.inl (List.mem_cons_of_mem _ h4)
          · cases h4
          · exact Or.inr (Or.inr h4)

/-- Characters of a `trocarNumerais` output come from the input or are
digits. -/
theorem chars_trocar (X : List Char) (c : Char) (hc : c ∈ trocarNumerais X) :
    c ∈ X ∨ c ∈ digitos := by
  rcases chars_trocarAux X [] c hc with h | h | h
  · exact Or.inl h
  · cases h
  · exact Or.inr h

/-- `trocarNumerais` keeps whitespace-freedom. -/
theorem trocar_space_free (X : List Char) (hX : ∀ c ∈ X, ehEspaco c = false) :
    ∀ c ∈ trocarNumerais X, ehEspaco c = false := by
  intro c hc
  rcases chars_trocar X c hc with h | h
  · exact hX c h
  · exact (digitos_fatos c h).1

/-- The numeral rewrite distributes over a non-word separator. -/
theorem trocar_split :
    ∀ (n : Nat) (A : List Char), A.length ≤ n → ∀ (c : Char) (B : List Char),
      ehCaracterePalavra c = false →
      trocarNumerais (A ++ c :: B) = trocarNumerais A ++ c :: trocarNumerais B := by
  intro n
  induction n with
  | zero =>
    intro A hA c B h
    rw [List.length_eq_zero.mp (Nat.le_zero.mp hA)]
    rw [List.nil_append, trocar_naopalavra c B h]
    rfl
  | succ n ih =>
    intro A hA c B h
    cases A with
    | nil =>
      rw [List.nil_append, trocar_naopalavra c B h]
      rfl
    | cons a A2 =>
      have hlen : A2.length ≤ n := by
        simp only [List.length_cons] at hA
        omega
      by_cases wa : ehCaracterePalavra a = true
      · cases hdw : A2.dropWhile ehCaracterePalavra with
        | nil =>
          have hall : ∀ x ∈ A2, ehCaracterePalavra x = true :=
            dropWhile_nil_all A2 hdw
          have hcl : ((a :: A2) ++ c :: B) = a :: (A2 ++ c :: B) := rfl
          rw [hcl, trocar_palavra a _ wa,
            takeWhile_append_all A2 _ hall, dropWhile_append_all A2 _ hall]
          have ht2 : List.takeWhile ehCaracterePalavra (c :: B) = [] := by
            simp [List.takeWhile_cons, h]
          have hd2 : List.dropWhile ehCaracterePalavra (c :: B) = c :: B := by
            simp [List.dropWhile_cons, h]
          rw [ht2, hd2, List.append_nil, trocar_naopalavra c B h,
            trocar_pura (a :: A2) ?_ (List.cons_ne_nil _ _)]
          intro x hx
          rcases List.mem_cons.mp hx with rfl | hx2
          · exact wa
          · exact hall x hx2
        | cons d S =>
          have hd : ehCaracterePalavra d = false := dropWhile_head_false A2 d S hdw
          obtain ⟨htw, hdw2⟩ := takeWhile_append_stop A2 d S (c :: B) hdw
          have hlenS : S.length ≤ n := by
            have := (List.dropWhile_sublist (l := A2)
              (p := ehCaracterePalavra)).length_le
            rw [hdw] at this
            simp only [List.length_cons] at this
            omega
          have hcl : ((a :: A2) ++ c :: B) = a :: (A2 ++ c :: B) := rfl
          rw [hcl, trocar_palavra a _ wa, htw, hdw2, trocar_naopalavra d _ hd,
            ih S hlenS c B h, trocar_palavra a A2 wa, hdw,
            trocar_naopalavra d S hd]
          simp
      · have wa2 : ehCaracterePalavra a = false := Bool.of_not_eq_true wa
        have hcl : ((a :: A2) ++ c :: B) = a :: (A2 ++ c :: B) := rfl
        rw [hcl, trocar_naopalavra a _ wa2, ih A2 hlen c B h,
          trocar_naopalavra a A2 wa2]
        rfl

/-- The numeral rewrite is idempotent. -/
theorem trocar_idem :
    ∀ (n : Nat) (X : List Char), X.length ≤ n →
      trocarNumerais (trocarNumerais X) = trocarNumerais X := by
  intro n
  induction n with
  | zero =>
    intro X hX
    rw [List.length_eq_zero.mp (Nat.le_zero.mp hX)]
    rfl
  | succ n ih =>
    intro X hX
    cases X with
    | nil => rfl
    | cons x cs =>
      have hlen : cs.length ≤ n := by
        simp only [List.length_cons] at hX
        omega
      by_cases hx : ehCaracterePalavra x = true
      · rw [trocar_palavra x cs hx]
        have hWwc : ∀ c ∈ x :: cs.takeWhile ehCaracterePalavra,
            ehCaracterePalavra c = true := by
          intro c hc
          rcases List.mem_cons.mp hc with rfl | hc2
          · exact hx
          · exact mem_takeWhile_pred _ c hc2
        have hVwc := substNumeral_wc _ hWwc
        have hVne := substNumeral_ne_nil (x :: cs.takeWhile ehCaracterePalavra)
          (List.cons_ne_nil _ _)
        cases hdw : cs.dropWhile ehCaracterePalavra with
        | nil =>
          have h0 : trocarNumerais [] = [] := rfl
          rw [h0, List.append_nil, trocar_pura _ hVwc hVne, substNumeral_idem]
        | cons d S =>
          have hd : ehCaracterePalavra d = false := dropWhile_head_false cs d S hdw
          have hlenS : S.length ≤ n := by
            have := (List.dropWhile_sublist (l := cs)
              (p := ehCaracterePalavra)).length_le
            rw [hdw] at this
            simp only [List.length_cons] at this
            omega
          rw [trocar_naopalavra d S hd,
            trocar_split (substNumeral (x :: cs.takeWhile ehCaracterePalavra)).length
              _ le_rfl d _ hd,
            trocar_pura _ hVwc hVne, substNumeral_idem, ih S hlenS]
      · have hx2 : ehCaracterePalavra x = false := Bool.of_not_eq_true hx
        rw [trocar_naopalavra x cs hx2, trocar_naopalavra x _ hx2, ih cs hlen]


/-! ## C7 — interaction of the numeral rewrite with word splitting -/

/-- A nonempty whitespace-free list is a single word. -/
theorem palavras_sem_espaco (V : List Char) (h1 : ∀ c ∈ V, ehEspaco c = false)
    (h2 : V ≠ []) : palavras V = [V] := by
  cases V with
  | nil => exact absurd rfl h2
  | cons v rest =>
    have hall : ∀ a ∈ rest, (fun c => !ehEspaco c) a = true := by
      intro a ha
      have := h1 a (List.mem_cons_of_mem _ ha)
      simp [this]
    rw [palavras_palavra v rest (h1 v (List.mem_cons_self _ _)),
      takeWhile_all rest hall, dropWhile_all rest hall]
    rfl

/-- Splitting a word list at a leading word followed by whitespace. -/
theorem palavras_prefixo (P : List Char) (hP : ∀ c ∈ P, ehEspaco c = false)
    (hPne : P ≠ []) (d : Char) (hd : ehEspaco d = true) (R : List Char) :
    palavras (P ++ d :: R) = P :: palavras R := by
  cases P with
  | nil => exact absurd rfl hPne
  | cons p P2 =>
    have hall : ∀ a ∈ P2, (fun c => !ehEspaco c) a = true := by
      intro a ha
      have := hP a (List.mem_cons_of_mem _ ha)
      simp [this]
    rw [List.cons_append, palavras_palavra p _ (hP p (List.mem_cons_self _ _)),
      takeWhile_append_all P2 _ hall, dropWhile_append_all P2 _ hall]
    have ht : List.takeWhile (fun c => !ehEspaco c) (d :: R) = [] := by
      rw [List.takeWhile_cons]
      simp [hd]
    have hdr : List.dropWhile (fun c => !ehEspaco c) (d :: R) = d :: R := by
      rw [List.dropWhile_cons]
      simp [hd]
    rw [ht, hdr, palavras_espaco d R hd]
    simp

/-- The numeral rewrite maps the word decomposition word by word. -/
theorem palavras_trocar :
    ∀ (n : Nat) (X : List Char), X.length ≤ n →
      palavras (trocarNumerais X) = (palavras X).map trocarNumerais := by
  intro n
  induction n with
  | zero =>
    intro X hX
    rw [List.length_eq_zero.mp (Nat.le_zero.mp hX)]
    rfl
  | succ n ih =>
    intro X hX
    cases X with
    | nil => rfl
    | cons x cs =>
      have hlen : cs.length ≤ n := by
        simp only [List.length_cons] at hX
        omega
      by_cases hesp : ehEspaco x = true
      · have hwcx : ehCaracterePalavra x = false := espaco_nao_wc x hesp
        rw [trocar_naopalavra x cs hwcx, palavras_espaco x _ hesp,
          palavras_espaco x cs hesp, ih cs hlen]
      · have hesp2 : ehEspaco x = false := Bool.of_not_eq_true hesp
        cases hdw : cs.dropWhile (fun c => !ehEspaco c) with
        | nil =>
          have hall := dropWhile_nil_all cs hdw
          have hXsf : ∀ c ∈ x :: cs, ehEspaco c = false := by
            intro c hc
            rcases List.mem_cons.mp hc with rfl | hc2
            · exact hesp2
            · have := hall c hc2
              simpa using this
          have hTsf := trocar_space_free (x :: cs) hXsf
          have hTne := trocar_ne_nil (x :: cs) (List.cons_ne_nil _ _)
          rw [palavras_sem_espaco _ hTsf hTne,
            palavras_sem_espaco _ hXsf (List.cons_ne_nil _ _)]
          rfl
        | cons d S =>
          have hdf : (fun c => !ehEspaco c) d = false := dropWhile_head_false cs d S hdw
          have hdesp : ehEspaco d = true := by simpa using hdf
          have hwcd : ehCaracterePalavra d = false := espaco_nao_wc d hdesp
          have h1 := List.takeWhile_append_dropWhile
            (p := fun c => !ehEspaco c) (l := cs)
          rw [hdw] at h1
          have hsplit : x :: cs =
              (x :: cs.takeWhile (fun c => !ehEspaco c)) ++ d :: S := by
            conv_lhs => rw [← h1]
            simp
          have hPsf : ∀ c ∈ x :: cs.takeWhile (fun c => !ehEspaco c),
              ehEspaco c = false := by
            intro c hc
            rcases List.mem_cons.mp hc with rfl | hc2
            · exact hesp2
            · have := mem_takeWhile_pred _ c hc2
              simpa using this
          have hlenS : S.length ≤ n := by
            have := (List.dropWhile_sublist (l := cs)
              (p := fun c => !ehEspaco c)).length_le
            rw [hdw] at this
            simp only [List.length_cons] at this
            omega
          rw [hsplit,
            trocar_split (x :: cs.takeWhile (fun c => !ehEspaco c)).length _
              le_rfl d S hwcd,
            palavras_prefixo _ (trocar_space_free _ hPsf)
              (trocar_ne_nil _ (List.cons_ne_nil _ _)) d hdesp _,
            palavras_prefixo _ hPsf (List.cons_ne_nil _ _) d hdesp S,
            ih S hlenS]
          rfl

/-- Rewriting every word of a joined list fixed by the rewrite leaves
the joined list fixed. -/
theorem trocar_juntar_fixo :
    ∀ (ws : List (List Char)), (∀ w ∈ ws, trocarNumerais w = w) →
      trocarNumerais (juntar ws) = juntar ws := by
  intro ws
  induction ws with
  | nil => intro _; rfl
  | cons w ws ih =>
    intro h3
    cases ws with
    | nil => exact h3 w (List.mem_cons_self _ _)
    | cons w2 ws2 =>
      have hj : juntar (w :: w2 :: ws2) = w ++ ' ' :: juntar (w2 :: ws2) := rfl
      rw [hj, trocar_split w.length w le_rfl ' ' _ (by decide),
        h3 w (List.mem_cons_self _ _),
        ih (fun v hv => h3 v (List.mem_cons_of_mem _ hv))]

/-! ## C7 — per-character stability of the basic fold -/

/-- Characters of a joined word list come from the words or are the
separating space. -/
theorem juntar_chars :
    ∀ (ws : List (List Char)) (c : Char), c ∈ juntar ws →
      (∃ w ∈ ws, c ∈ w) ∨ c = ' ' := by
  intro ws
  induction ws with
  | nil => intro c hc; cases hc
  | cons w ws ih =>
    intro c hc
    cases ws with
    | nil => exact Or.inl ⟨w, List.mem_cons_self _ _, hc⟩
    | cons w2 ws2 =>
      have hc2 : c ∈ w ++ ' ' :: juntar (w2 :: ws2) := hc
      rcases List.mem_append.mp hc2 with h | h
      · exact Or.inl ⟨w, List.mem_cons_self _ _, h⟩
      · rcases List.mem_cons.mp h with rfl | h2
        · exact Or.inr rfl
        · rcases ih c h2 with ⟨v, hv, hcv⟩ | h3
          · exact Or.inl ⟨v, List.mem_cons_of_mem _ hv, hcv⟩
          · exact Or.inr h3

/-- A list of `fold1`-fixed characters is fixed by the flat map. -/
theorem flatMap_fold1_fixo :
    ∀ (l : List Char), (∀ c ∈ l, fold1 c = [c]) → l.flatMap fold1 = l := by
  intro l
  induction l with
  | nil => intro _; rfl
  | cons a l ih =>
    intro h
    rw [List.flatMap_cons, h a (List.mem_cons_self _ _),
      ih (fun c hc => h c (List.mem_cons_of_mem _ hc))]
    rfl

/-- `(Char.ofNat n).toNat = n` below the surrogate range. -/
theorem toNat_ofNat_valido (n : Nat) (h : n < 55296) : (Char.ofNat n).toNat = n := by
  unfold Char.ofNat
  rw [dif_pos (Or.inl h)]
  rfl

/-- Case analysis of the lowercasing map. -/
theorem paraMinuscula_casos (c : Char) :
    (65 ≤ c.toNat ∧ c.toNat ≤ 90 ∧ (paraMinuscula c).toNat = c.toNat + 32) ∨
    (192 ≤ c.toNat ∧ c.toNat ≤ 222 ∧ c.toNat ≠ 215 ∧
      (paraMinuscula c).toNat = c.toNat + 32) ∨
    paraMinuscula c = c := by
  unfold paraMinuscula
  by_cases h1 : 65 ≤ c.toNat ∧ c.toNat ≤ 90
  · rw [if_pos h1]
    exact Or.inl ⟨h1.1, h1.2, toNat_ofNat_valido _ (by omega)⟩
  · rw [if_neg h1]
    by_cases h2 : 192 ≤ c.toNat ∧ c.toNat ≤ 222 ∧ c.toNat ≠ 215
    · rw [if_pos h2]
      exact Or.inr (Or.inl ⟨h2.1, h2.2.1, h2.2.2, toNat_ofNat_valido _ (by omega)⟩)
    · rw [if_neg h2]
      exact Or.inr (Or.inr rfl)

/-- A character outside both uppercase ranges is fixed by lowercasing. -/
theorem paraMinuscula_fixo (d : Char) (h1 : ¬(65 ≤ d.toNat ∧ d.toNat ≤ 90))
    (h2 : ¬(192 ≤ d.toNat ∧ d.toNat ≤ 222 ∧ d.toNat ≠ 215)) :
    paraMinuscula d = d := by
  unfold paraMinuscula
  rw [if_neg h1, if_neg h2]

/-- Lowercasing is idempotent. -/
theorem paraMinuscula_idem (c : Char) :
    paraMinuscula (paraMinuscula c) = paraMinuscula c := by
  rcases paraMinuscula_casos c with ⟨ha, hb, ht⟩ | ⟨ha, hb, hn, ht⟩ | hfix
  · exact paraMinuscula_fixo _ (by omega) (by omega)
  · exact paraMinuscula_fixo _ (by omega) (by omega)
  · rw [hfix]
    exact hfix

/-- Lowercasing never lands in the combining-mark block. -/
theorem paraMinuscula_nao_comb (c : Char)
    (h : ¬(768 ≤ c.toNat ∧ c.toNat ≤ 879)) :
    ¬(768 ≤ (paraMinuscula c).toNat ∧ (paraMinuscula c).toNat ≤ 879) := by
  rcases paraMinuscula_casos c with ⟨ha, hb, ht⟩ | ⟨ha, hb, hn, ht⟩ | hfix
  · omega
  · omega
  · rw [hfix]
    exact h

/-- `fold1` on a combining mark. -/
theorem fold1_comb (c : Char) (h : 768 ≤ c.toNat ∧ c.toNat ≤ 879) :
    fold1 c = [] := by
  unfold fold1
  rw [if_pos h]

/-- `fold1` on a decomposable character. -/
theorem fold1_decomp (c b : Char) (h : ¬(768 ≤ c.toNat ∧ c.toNat ≤ 879))
    (hdb : decompBase (paraMinuscula c) = some b) : fold1 c = [b] := by
  unfold fold1
  rw [if_neg h]
  simp only [hdb]

/-- `fold1` on a plain character. -/
theorem fold1_base (c : Char) (h : ¬(768 ≤ c.toNat ∧ c.toNat ≤ 879))
    (hdb : decompBase (paraMinuscula c) = none) : fold1 c = [paraMinuscula c] := by
  unfold fold1
  rw [if_neg h]
  simp only [hdb]

/-- The decomposition table's base letters are `fold1`-fixed. -/
theorem tabela_fold : ∀ p ∈ tabelaDecomp, fold1 p.2 = [p.2] := by decide

/-- Every character a `fold1` image contains is itself `fold1`-fixed. -/
theorem fold1_fixo_map (c c2 : Char) (hc2 : c2 ∈ fold1 c) : fold1 c2 = [c2] := by
  by_cases hcomb : 768 ≤ c.toNat ∧ c.toNat ≤ 879
  · rw [fold1_comb c hcomb] at hc2
    cases hc2
  · cases hdb : decompBase (paraMinuscula c) with
    | some b =>
      rw [fold1_decomp c b hcomb hdb] at hc2
      rcases List.mem_cons.mp hc2 with rfl | h
      · unfold decompBase at hdb
        rw [Option.map_eq_some'] at hdb
        obtain ⟨p, hf, hb⟩ := hdb
        rw [← hb]
        exact tabela_fold p (List.mem_of_find?_eq_some hf)
      · cases h
    | none =>
      rw [fold1_base c hcomb hdb] at hc2
      rcases List.mem_cons.mp hc2 with rfl | h
      · have hres := fold1_base (paraMinuscula c) (paraMinuscula_nao_comb c hcomb)
          (by rw [paraMinuscula_idem]; exact hdb)
        rw [paraMinuscula_idem] at hres
        exact hres
      · cases h

/-- Every character of the composite fold's output is `fold1`-fixed. -/
theorem y_fold1_fixo (s : List Char) :
    ∀ c ∈ normChaves (trocarNumerais (normalizar s)), fold1 c = [c] := by
  intro c hc
  unfold normChaves at hc
  rcases juntar_chars _ c hc with ⟨w, hw, hcw⟩ | rfl
  · have hcX : c ∈ trocarNumerais (normalizar s) := ((palavras_boa _ w hw).2 c hcw).2
    rcases chars_trocar _ c hcX with hcz | hdig
    · unfold normalizar normChaves at hcz
      rcases juntar_chars _ c hcz with ⟨w2, hw2, hcw2⟩ | rfl
      · have hcf : c ∈ s.flatMap fold1 := ((palavras_boa _ w2 hw2).2 c hcw2).2
        obtain ⟨c0, hc0, hcc0⟩ := List.mem_flatMap.mp hcf
        exact fold1_fixo_map c0 c hcc0
      · decide
    · exact (digitos_fatos c hdig).2.2
  · decide

/-- Idempotence of the prefix-free composite fold. -/
theorem fold_idem_geral (s : List Char) :
    normChaves (trocarNumerais (normalizar
      (normChaves (trocarNumerais (normalizar s))))) =
      normChaves (trocarNumerais (normalizar s)) := by
  have hA : (normChaves (trocarNumerais (normalizar s))).flatMap fold1 =
      normChaves (trocarNumerais (normalizar s)) :=
    flatMap_fold1_fixo _ (y_fold1_fixo s)
  have hB : trocarNumerais (normChaves (trocarNumerais (normalizar s))) =
      normChaves (trocarNumerais (normalizar s)) := by
    unfold normChaves
    apply trocar_juntar_fixo
    intro w hw
    rw [palavras_trocar (normalizar s).length (normalizar s) le_rfl] at hw
    obtain ⟨u, hu, rfl⟩ := List.mem_map.mp hw
    exact trocar_idem u.length u le_rfl
  calc normChaves (trocarNumerais (normalizar
          (normChaves (trocarNumerais (normalizar s)))))
      = normChaves (trocarNumerais (normChaves
          ((normChaves (trocarNumerais (normalizar s))).flatMap fold1))) := rfl
    _ = normChaves (trocarNumerais (normChaves
          (normChaves (trocarNumerais (normalizar s))))) := by rw [hA]
    _ = normChaves (trocarNumerais (normChaves (trocarNumerais (normalizar s)))) := by
          rw [normChaves_idem]
    _ = normChaves (normChaves (trocarNumerais (normalizar s))) := by rw [hB]
    _ = normChaves (trocarNumerais (normalizar s)) := normChaves_idem _

/-- C7 is refuted as stated: for the Bairro kind the prefix loop removes
one prefix per listed prefix word, so a second application of
`normalizarComPrefixos` can strip another prefix.  On
`"jardim setor a"` the first application yields `"setor a"`, the second
`"a"`. -/
theorem claim_C7_counterexample :
    normalizarComPrefixos
        (normalizarComPrefixos ("jardim setor a".toList) .Bairro) .Bairro ≠
      normalizarComPrefixos ("jardim setor a".toList) .Bairro := by
  decide

/-- C7 (amended): `normalizarComPrefixos` is idempotent for the two
entity kinds whose prefix registry is empty (Cidade and Logradouro),
where it reduces to the basic fold plus the numeral rewrite. -/
theorem claim_C7_amended (s : List Char) :
    (normalizarComPrefixos (normalizarComPrefixos s .Cidade) .Cidade =
      normalizarComPrefixos s .Cidade) ∧
    (normalizarComPrefixos (normalizarComPrefixos s .Logradouro) .Logradouro =
      normalizarComPrefixos s .Logradouro) := by
  constructor
  · exact fold_idem_geral s
  · exact fold_idem_geral s


end Dedup
